import Mathlib

/-!
# GopherDB — verification of the B-tree node and transaction layer

A shallow embedding of the GopherDB source (`node.go`, `transaction.go`)
together with the pieces of the data-access layer that the repository does
not ship (constants, free-list, fill policy), modelled from the design
document where noted.  Bytes are `Nat` values below 256, buffers are total
functions `Int → Nat`, page numbers are natural numbers (the source's
`pgnum` is an unsigned 64-bit integer; the 64-bit truncation is applied
explicitly wherever the source converts).
-/

namespace GopherDB

/-- Embedding of `pgnum` from the source code: a page number.  The source declares it as an
unsigned 64-bit integer; we use `Nat` and apply `% 2^64` where the source
converts. -/
abbrev pgnum := Nat

/-- Embedding of `Item` from `node.go`: a key/value pair of byte strings. -/
structure Item where
  key : List Nat
  value : List Nat
deriving DecidableEq, Repr, Inhabited

/-- Embedding of `Node` from `node.go`: a B-tree node with its page number, sorted items
and child page numbers. -/
structure Node where
  pageNum : pgnum
  items : List Item
  childNodes : List pgnum
deriving DecidableEq, Repr, Inhabited

/-- Embedding of `pageNumSize` from the data-access layer (file not under `src/`).
Modelled from the spec: a page number serializes to 8 bytes. -/
def pageNumSize : Nat := 8

/-- Embedding of `nodeHeaderSize` from the data-access layer (file not under `src/`).
Modelled from the spec: the node header is 3 bytes (1 leaf flag byte plus a
2-byte item count), matching the 3 header bytes `serialize` writes. -/
def nodeHeaderSize : Nat := 3

/-- Embedding of `Node.isLeaf` from `node.go`: a node is a leaf when it has no child
page numbers. -/
def Node.isLeaf (n : Node) : Bool := n.childNodes.length == 0

/-- Embedding of `Node.elementSize` from `node.go`: the size charged for the item at
index `i` — key length plus value length plus one child-pointer size. -/
def Node.elementSize (n : Node) (i : Nat) : Nat :=
  (n.items.getD i default).key.length + (n.items.getD i default).value.length + pageNumSize

/-- Embedding of `Node.nodeSize` from `node.go`: header size, plus `elementSize` for
every item, plus one trailing child-pointer size. -/
def Node.nodeSize (n : Node) : Nat :=
  nodeHeaderSize + ((List.range n.items.length).map n.elementSize).sum + pageNumSize

/-! ## Node serialization (`node.go`)

A page buffer is a byte at every integer offset; Go's slice writes become
function updates (`% 256` where Go stores a `byte`), and positions are
`Int` because the source computes them with Go's signed `int`. -/


/-- A page buffer. -/
def Buf := Int → Nat

/-- Store `v` at `buf[i]` with Go's `byte` truncation. -/
def writeByte (buf : Buf) (i : Int) (v : Nat) : Buf :=
  fun j => if j = i then v % 256 else buf j

/-- Write `w` bytes of `v` little-endian at `i` — the body of
`binary.LittleEndian.PutUint16/PutUint64`. -/
def writeBytesLE : Nat → Buf → Int → Nat → Buf
  | 0, buf, _, _ => buf
  | w + 1, buf, i, v => writeBytesLE w (writeByte buf i v) (i + 1) (v / 256)

/-- Go's `copy(buf[i:], data)` for `data` of known length. -/
def copyBytes : Buf → Int → List Nat → Buf
  | buf, _, [] => buf
  | buf, i, b :: rest => copyBytes (writeByte buf i b) (i + 1) rest

/-- Read `w` bytes little-endian at `i` — the body of
`binary.LittleEndian.Uint16/Uint64`. -/
def readBytesLE : Nat → Buf → Int → Nat
  | 0, _, _ => 0
  | w + 1, buf, i => buf i + 256 * readBytesLE w buf (i + 1)

/-- Go's slice read `buf[i : i+len]`. -/
def readRange (buf : Buf) (i : Int) (len : Nat) : List Nat :=
  (List.range len).map (fun (j : Nat) => buf (i + (j : Int)))

/-- The per-item loop of `Node.serialize` from `node.go`: for each item,
write the child pointer (non-leaf) and the 2-byte offset at the left
cursor, and the cell — value, value length, key, key length, appended
right to left — at the right cursor.  Children are consumed in step with
the items (`n.childNodes[i]`). -/
def serializeItemsGo (isLeaf : Bool) :
    List Item → List pgnum → Int → Int → Buf → Int × Int × Buf
  | [], _, l, r, buf => (l, r, buf)
  | item :: rest, cs, l, r, buf =>
      let l1 := if isLeaf then l else l + 8
      let buf1 := if isLeaf then buf else writeBytesLE 8 buf l (cs.headD 0)
      let klen := item.key.length
      let vlen := item.value.length
      let offset : Int := r - klen - vlen - 2
      let buf2 := writeBytesLE 2 buf1 l1 ((offset.emod 65536).toNat)
      let l2 := l1 + 2
      let r1 := r - vlen
      let buf3 := copyBytes buf2 r1 item.value
      let r2 := r1 - 1
      let buf4 := writeByte buf3 r2 vlen
      let r3 := r2 - klen
      let buf5 := copyBytes buf4 r3 item.key
      let r4 := r3 - 1
      let buf6 := writeByte buf5 r4 klen
      serializeItemsGo isLeaf rest (if isLeaf then cs else cs.tail) l2 r4 buf6

/-- Embedding of `Node.serialize` from `node.go`: header (leaf flag byte, 2-byte item
count), the per-item loop from position 3 with the right cursor at
`pageSize - 1`, and for a non-leaf node the trailing child pointer at the
final left cursor. -/
def serializeGo (pageSize : Nat) (n : Node) (buf : Buf) : Buf :=
  let isLeaf := n.isLeaf
  let buf1 := writeByte buf 0 (if isLeaf then 1 else 0)
  let buf2 := writeBytesLE 2 buf1 1 n.items.length
  let res := serializeItemsGo isLeaf n.items n.childNodes 3 ((pageSize : Int) - 1) buf2
  if isLeaf then res.2.2
  else writeBytesLE 8 res.2.2 res.1 (n.childNodes.getLastD 0)

/-- The per-item loop of `Node.deserialize` from `node.go`: for each of the
`count` items read the child pointer (when the leaf byte is 0) and the
2-byte offset at the left cursor, then the key length, key, value length
and value at that offset. -/
def deserializeItemsGo (buf : Buf) (isLeafByte : Nat) :
    Nat → Int → List pgnum → List Item → Int × List pgnum × List Item
  | 0, l, cs, its => (l, cs, its)
  | cnt + 1, l, cs, its =>
      let l1 := if isLeafByte = 0 then l + 8 else l
      let cs1 := if isLeafByte = 0 then cs ++ [readBytesLE 8 buf l] else cs
      let offset : Int := (readBytesLE 2 buf l1 : Nat)
      let l2 := l1 + 2
      let klen := buf offset
      let key := readRange buf (offset + 1) klen
      let vlen := buf (offset + 1 + klen)
      let value := readRange buf (offset + 1 + klen + 1) vlen
      deserializeItemsGo buf isLeafByte cnt l2 cs1 (its ++ [Item.mk key value])

/-- Embedding of `Node.deserialize` from `node.go`, run on a fresh empty node (which is
how `dal.getNode` uses it): returns the collected items and child page
numbers. -/
def deserializeGo (buf : Buf) : List Item × List pgnum :=
  let isLeafB := buf 0
  let itemsCount := readBytesLE 2 buf 1
  let res := deserializeItemsGo buf isLeafB itemsCount 3 [] []
  let cs := if isLeafB = 0 then res.2.1 ++ [readBytesLE 8 buf res.1] else res.2.1
  (res.2.2, cs)

/-- The bytes one item's cell occupies: key, value, and their two length
bytes. -/
def cellSz (it : Item) : Nat := it.key.length + it.value.length + 2

/-- Total cell bytes of a list of items. -/
def cellBytes (xs : List Item) : Nat := (xs.map cellSz).sum

/-- The number of page bytes `serialize` consumes for a node: 3 header
bytes; per item a 2-byte offset slot (plus an 8-byte child pointer when
non-leaf); the trailing child pointer when non-leaf; and the cells.  The
byte at `pageSize - 1` is never written (the right cursor starts there and
moves left before each store), so `serialize` fits in a page exactly when
`serializedBytes n < pageSize`. -/
def serializedBytes (n : Node) : Nat :=
  3 + n.items.length * (if n.isLeaf then 2 else 10) + (if n.isLeaf then 0 else 8)
    + cellBytes n.items

/-! ## Transactions (`transaction.go`) and the free-list -/


/-- Embedding of `tx` from `transaction.go`: the dirty-node map (a Go map; modelled as an
association list standing for one iteration order), the pages to delete on
commit, the pages allocated during the transaction, and the write flag. -/
structure Tx where
  dirtyNodes : List (pgnum × Node)
  pagesToDelete : List pgnum
  allocatedPageNums : List pgnum
  write : Bool
deriving DecidableEq, Repr

/-- The free-list of the data-access layer (file not under `src/`).
Modelled from the spec: the next never-allocated page number `max_page` and
the sequence of released page numbers available for reuse. -/
structure Freelist where
  maxPage : pgnum
  releasedPages : List pgnum
deriving DecidableEq, Repr

/-- Modelled from the spec: `release_page_number` pushes the page onto the
released list. -/
def Freelist.releasePage (fl : Freelist) (p : pgnum) : Freelist :=
  { fl with releasedPages := fl.releasedPages ++ [p] }

/-- Modelled from the spec: `allocate_page_number` pops from the released
list if non-empty (stack order, matching push/release), otherwise
increments `max_page`. -/
def Freelist.getNextPage (fl : Freelist) : pgnum × Freelist :=
  match fl.releasedPages.getLast? with
  | some p => (p, { fl with releasedPages := fl.releasedPages.dropLast })
  | none => (fl.maxPage + 1, { fl with maxPage := fl.maxPage + 1 })

/-- The first-failure scan of `Commit`'s dirty-node loop: `true` when the
page-store write of some dirty node fails before all succeed.  `writeN`
abstracts `dal.writeNode` (file not under `src/`): `none` is an error. -/
def commitWriteFails (writeN : Node → Option Unit) : List (pgnum × Node) → Bool
  | [] => false
  | (_, nd) :: rest =>
      match writeN nd with
      | none => true
      | some _ => commitWriteFails writeN rest

/-- Embedding of `tx.Commit` from `transaction.go`.  A read transaction just releases
its lock.  A write transaction persists every dirty node (stopping at the
first error), releases the pages to delete, writes the free-list
(`writeFL`, `none` meaning an error), and only then clears its in-memory
state.  The result is the transaction state at the point of return
together with `some ()` when an error was returned. -/
def txCommit (writeN : Node → Option Unit) (writeFL : Option Unit) (t : Tx) :
    Tx × Option Unit :=
  if !t.write then (t, none)
  else if commitWriteFails writeN t.dirtyNodes then (t, some ())
  else
    match writeFL with
    | none => (t, some ())
    | some _ =>
        ({ t with dirtyNodes := [], pagesToDelete := [], allocatedPageNums := [] }, none)

/-- Embedding of `tx.Rollback` from `transaction.go`.  A read transaction just releases
its lock.  A write transaction clears its dirty nodes and pages to delete,
releases every allocated page back onto the free-list, and clears the
allocated list.  The page store (`store`) is never written. -/
def txRollback (t : Tx) (fl : Freelist) (store : pgnum → Option Node) :
    Tx × Freelist × (pgnum → Option Node) :=
  if !t.write then (t, fl, store)
  else
    let fl' := t.allocatedPageNums.foldl Freelist.releasePage fl
    ({ t with dirtyNodes := [], pagesToDelete := [], allocatedPageNums := [] }, fl', store)

/-- Embedding of `tx.newNode` from `transaction.go`, restricted to its page accounting:
allocate the next page number from the free-list and append it to the
transaction's allocated-page list. -/
def txNewNode (t : Tx) (fl : Freelist) (items : List Item) (children : List pgnum) :
    Node × Tx × Freelist :=
  let (p, fl') := fl.getNextPage
  (Node.mk p items children,
   { t with allocatedPageNums := t.allocatedPageNums ++ [p] }, fl')

/-- Performs `k` successive `tx.newNode` allocations. -/
def txAllocPages : Nat → Tx → Freelist → Tx × Freelist
  | 0, t, fl => (t, fl)
  | k+1, t, fl =>
      let r := txNewNode t fl [] []
      txAllocPages k r.2.1 r.2.2

/-- The page numbers issued by `k` successive free-list allocations. -/
def nextPages : Nat → Freelist → List pgnum × Freelist
  | 0, fl => ([], fl)
  | k+1, fl =>
      let r := fl.getNextPage
      let rest := nextPages k r.2
      (r.1 :: rest.1, rest.2)

/-- Errors of the transaction/collection layer (`const.go` is not under
`src/`; the spec's error taxonomy names the kinds). -/
inductive DBError where
  | writeInsideReadTx
  | keyNotFound
deriving DecidableEq, Repr

/-- Embedding of `Collection` from the collection layer (file not under `src/`).
Modelled from the spec: a named B-tree root pointer. -/
structure Collection where
  name : List Nat
  root : pgnum
deriving DecidableEq, Repr

/-- Embedding of `tx.CreateCollection` from `transaction.go`.  The body after the
read-only check (allocating a root page and inserting the collection into
the root collection) goes through the data-access layer not under `src/`;
it is abstracted as `rest` and runs only in a write transaction. -/
def txCreateCollection {σ : Type}
    (rest : List Nat → σ → Tx → Option Collection × Option DBError × σ × Tx)
    (name : List Nat) (t : Tx) (s : σ) : Option Collection × Option DBError × σ × Tx :=
  if !t.write then (none, some .writeInsideReadTx, s, t)
  else rest name s t

/-- Embedding of `tx.DeleteCollection` from `transaction.go`, with the post-check body
(removal from the root collection) abstracted as `rest`. -/
def txDeleteCollection {σ : Type}
    (rest : List Nat → σ → Tx → Option DBError × σ × Tx)
    (name : List Nat) (t : Tx) (s : σ) : Option DBError × σ × Tx :=
  if !t.write then (some .writeInsideReadTx, s, t)
  else rest name s t

/-- Modelled from the spec: `Collection.Put` (collection layer not under
`src/`).  Per the error taxonomy, a mutating call on a read-only
transaction fails with `WriteInsideReadTx` before touching any state; the
actual insertion is abstracted as `rest` and runs only in a write
transaction. -/
def collectionPut {σ : Type}
    (rest : List Nat → List Nat → σ → Tx → Option DBError × σ × Tx)
    (key value : List Nat) (t : Tx) (s : σ) : Option DBError × σ × Tx :=
  if !t.write then (some .writeInsideReadTx, s, t)
  else rest key value s t

/-! ## B-tree node algorithms (`node.go`) -/


/-- The scan of `dal.getSplitIndex`: accumulate element sizes over the
remaining items (index `i` onward), returning the first index that both
pushes the accumulated size past `minThr` and is smaller than `lastIdx`. -/
def splitIndexAux (minThr lastIdx : Nat) : List Item → Nat → Nat → Int
  | [], _, _ => -1
  | it :: rest, i, size =>
      let size' := size + (it.key.length + it.value.length + pageNumSize)
      if minThr < size' && i < lastIdx then (i : Int)
      else splitIndexAux minThr lastIdx rest (i + 1) size'

/-- Modelled from the spec: `dal.getSplitIndex` (data-access layer not
under `src/`) — scan items left to right accumulating size from the node
header size; return the first index `i` whose cumulative size exceeds
`minThr` (standing for `min_fill_percent * page_size`, kept integral),
provided `i < items.len() - 1`; otherwise `-1`. -/
def getSplitIndex (minThr : Nat) (n : Node) : Int :=
  splitIndexAux minThr (n.items.length - 1) n.items 0 nodeHeaderSize

/-- Embedding of `Node.canSpareAnElement` from `node.go`: true exactly when
`getSplitIndex` is not `-1`. -/
def Node.canSpareAnElement (minThr : Nat) (n : Node) : Bool :=
  !(getSplitIndex minThr n == -1)

/-- Embedding of `Node.addItem` from `node.go`: append when inserting past the last
element, otherwise the slice-shift insert
`append(items[:i+1], items[i:]...)` followed by `items[i] = item`. -/
def addItemGo (items : List Item) (item : Item) (insertionIndex : Nat) : List Item :=
  if items.length = insertionIndex then items ++ [item]
  else ((items.take (insertionIndex + 1)) ++ items.drop insertionIndex).set insertionIndex item

/-- Embedding of `Node.split` from `node.go`, acting on the parent `n` and the
over-populated child.  The fresh page number that `dal.newNode` (not under
`src/`) would assign to the new node is passed in as `newPageNum`; the
dirty-marking writes do not change node contents and are elided.  Returns
the updated parent, the truncated child, and the new node. -/
def splitGo (minThr : Nat) (newPageNum : pgnum) (n nodeToSplit : Node)
    (nodeToSplitIndex : Nat) : Node × Node × Node :=
  let splitIndex := (getSplitIndex minThr nodeToSplit).toNat
  let middleItem := nodeToSplit.items.getD splitIndex default
  let pair :=
    if nodeToSplit.isLeaf then
      (Node.mk newPageNum (nodeToSplit.items.drop (splitIndex + 1)) [],
       { nodeToSplit with items := nodeToSplit.items.take splitIndex })
    else
      (Node.mk newPageNum (nodeToSplit.items.drop (splitIndex + 1))
         (nodeToSplit.childNodes.drop (splitIndex + 1)),
       { nodeToSplit with
           items := nodeToSplit.items.take splitIndex,
           childNodes := nodeToSplit.childNodes.take (splitIndex + 1) })
  let newNode := pair.1
  let child := pair.2
  let parentItems := addItemGo n.items middleItem nodeToSplitIndex
  let parentChildren :=
    if n.childNodes.length = nodeToSplitIndex + 1 then n.childNodes ++ [newPageNum]
    else ((n.childNodes.take (nodeToSplitIndex + 1)) ++
            n.childNodes.drop nodeToSplitIndex).set (nodeToSplitIndex + 1) newPageNum
  ({ n with items := parentItems, childNodes := parentChildren }, child, newNode)

/-- Embedding of `rotateRight` from `node.go`: pop the last item of the left node, move
the parent separator at `rightNodeIndex - 1` (the source's `isFirst` clamp
is a no-op) down to the front of the right node, install the popped item as
the separator, and for a non-leaf left node move its last child pointer to
the front of the right node's children.  Returns (left, right, parent).
Go's `int` index is modelled as `Nat`; callers guard `rightNodeIndex ≠ 0`. -/
def rotateRightGo (leftNode rightNode parentNode : Node) (rightNodeIndex : Nat) :
    Node × Node × Node :=
  let leftNodeItem := leftNode.items.getLastD default
  let leftNode1 := { leftNode with items := leftNode.items.dropLast }
  let pIdx0 := rightNodeIndex - 1
  let pNodeIndex := if pIdx0 = 0 then 0 else pIdx0
  let pNodeItem := parentNode.items.getD pNodeIndex default
  let parentNode1 := { parentNode with items := parentNode.items.set pNodeIndex leftNodeItem }
  let rightNode1 := { rightNode with items := pNodeItem :: rightNode.items }
  if leftNode1.isLeaf then (leftNode1, rightNode1, parentNode1)
  else
    let child := leftNode1.childNodes.getLastD 0
    (({ leftNode1 with childNodes := leftNode1.childNodes.dropLast }),
     ({ rightNode1 with childNodes := child :: rightNode1.childNodes }),
     parentNode1)

/-- Embedding of `rotateLeft` from `node.go`: shift the first item of the right node up
through the parent separator at `rightNodeIndex` (clamped by `isLast` to
`parent.items.len() - 1`) down to the back of the left node, and for a
non-leaf right node move its first child pointer to the back of the left
node's children.  Returns (left, right, parent). -/
def rotateLeftGo (leftNode rightNode parentNode : Node) (rightNodeIndex : Nat) :
    Node × Node × Node :=
  let rightNodeItem := rightNode.items.getD 0 default
  let rightNode1 := { rightNode with items := rightNode.items.tail }
  let pNodeIndex :=
    if rightNodeIndex = parentNode.items.length then parentNode.items.length - 1
    else rightNodeIndex
  let pNodeItem := parentNode.items.getD pNodeIndex default
  let parentNode1 := { parentNode with items := parentNode.items.set pNodeIndex rightNodeItem }
  let leftNode1 := { leftNode with items := leftNode.items ++ [pNodeItem] }
  if rightNode1.isLeaf then (leftNode1, rightNode1, parentNode1)
  else
    let child := rightNode1.childNodes.getD 0 0
    (({ leftNode1 with childNodes := leftNode1.childNodes ++ [child] }),
     ({ rightNode1 with childNodes := rightNode1.childNodes.tail }),
     parentNode1)

/-- Embedding of `Node.merge` from `node.go`: fold the right node `bNode` (the child at
`bNodeIndex`) into its left sibling together with the parent separator at
`bNodeIndex - 1`, remove the separator and the right child pointer from the
parent, and delete `bNode`'s page.  `store` resolves `getNode`; a failed
lookup yields `none`, and `bNodeIndex = 0` (a negative-index runtime panic
in Go) also yields `none`.  Returns (parent, merged left sibling, deleted
page). -/
def mergeGo (store : pgnum → Option Node) (n bNode : Node) (bNodeIndex : Nat) :
    Option (Node × Node × pgnum) :=
  if bNodeIndex = 0 then none
  else
    match store (n.childNodes.getD (bNodeIndex - 1) 0) with
    | none => none
    | some aNode =>
        let pNodeItem := n.items.getD (bNodeIndex - 1) default
        let aNode1 := { aNode with items := aNode.items ++ [pNodeItem] ++ bNode.items }
        let n1 := { n with
          items := n.items.take (bNodeIndex - 1) ++ n.items.drop bNodeIndex,
          childNodes := n.childNodes.take bNodeIndex ++ n.childNodes.drop (bNodeIndex + 1) }
        let aNode2 :=
          if aNode1.isLeaf then aNode1
          else { aNode1 with childNodes := aNode1.childNodes ++ bNode.childNodes }
        some (n1, aNode2, bNode.pageNum)

/-- The action `rebalanceRemove` ends with: a right rotation, a left
rotation, or a merge.  Rotations carry the rotated (left, right, parent)
triple; merges carry the node and right-node index passed to `merge`
together with its (parent, merged sibling, deleted page) result. -/
inductive RebalanceOutcome where
  | rotatedRight (result : Node × Node × Node)
  | rotatedLeft (result : Node × Node × Node)
  | merged (bNode : Node) (bNodeIndex : Nat) (result : Node × Node × pgnum)
deriving DecidableEq, Repr

/-- The merge stage of `rebalanceRemove` from `node.go` (reached when
neither rotation applies): merge with the right sibling when the node is
the first child — `merge(rightNode, unbalancedNodeIndex+1)` — and
otherwise merge the node into its left sibling —
`merge(unbalancedNode, unbalancedNodeIndex)`. -/
def rebalanceMergeStage (store : pgnum → Option Node)
    (parent unbalancedNode : Node) (unbalancedNodeIndex : Nat) : Option RebalanceOutcome :=
  if unbalancedNodeIndex = 0 then
    match store (parent.childNodes.getD (unbalancedNodeIndex + 1) 0) with
    | none => none
    | some rightNode =>
        match mergeGo store parent rightNode (unbalancedNodeIndex + 1) with
        | none => none
        | some r => some (.merged rightNode (unbalancedNodeIndex + 1) r)
  else
    match mergeGo store parent unbalancedNode unbalancedNodeIndex with
    | none => none
    | some r => some (.merged unbalancedNode unbalancedNodeIndex r)

/-- The rotate-left stage of `rebalanceRemove` from `node.go`: when the
node is not the last child and the right sibling can spare an element,
rotate left; otherwise fall through to the merge stage. -/
def rebalanceLeftStage (store : pgnum → Option Node) (minThr : Nat)
    (parent unbalancedNode : Node) (unbalancedNodeIndex : Nat) : Option RebalanceOutcome :=
  if unbalancedNodeIndex ≠ parent.childNodes.length - 1 then
    match store (parent.childNodes.getD (unbalancedNodeIndex + 1) 0) with
    | none => none
    | some rightNode =>
        if rightNode.canSpareAnElement minThr then
          some (.rotatedLeft (rotateLeftGo unbalancedNode rightNode parent unbalancedNodeIndex))
        else rebalanceMergeStage store parent unbalancedNode unbalancedNodeIndex
  else rebalanceMergeStage store parent unbalancedNode unbalancedNodeIndex

/-- Embedding of `Node.rebalanceRemove` from `node.go`: try to rotate right with the
left sibling, then to rotate left with the right sibling, then merge.
`store` resolves `getNode`; lookup failures propagate as `none`. -/
def rebalanceRemoveGo (store : pgnum → Option Node) (minThr : Nat)
    (parent unbalancedNode : Node) (unbalancedNodeIndex : Nat) : Option RebalanceOutcome :=
  if unbalancedNodeIndex ≠ 0 then
    match store (parent.childNodes.getD (unbalancedNodeIndex - 1) 0) with
    | none => none
    | some leftNode =>
        if leftNode.canSpareAnElement minThr then
          some (.rotatedRight (rotateRightGo leftNode unbalancedNode parent unbalancedNodeIndex))
        else rebalanceLeftStage store minThr parent unbalancedNode unbalancedNodeIndex
  else rebalanceLeftStage store minThr parent unbalancedNode unbalancedNodeIndex

/-- The predecessor-descent loop of `removeItemFromInternal` from
`node.go`.  `nChildLen` is `len(n.childNodes)` of the TOP node, which is
what the source reads on every iteration (`rIndex := len(n.childNodes)-1`);
`fuel` bounds the descent (the source loop is unbounded).  Lookup failures
and out-of-range child indexes (runtime panics in Go) yield `none`. -/
def riLoop (store : pgnum → Option Node) (nChildLen : Nat) :
    Nat → Node → List Nat → Option (Node × List Nat)
  | 0, _, _ => none
  | fuel + 1, lNode, affected =>
      if lNode.isLeaf then some (lNode, affected)
      else
        let rIndex := nChildLen - 1
        match lNode.childNodes.get? rIndex with
        | none => none
        | some pg =>
            match store pg with
            | none => none
            | some nd => riLoop store nChildLen fuel nd (affected ++ [rIndex])

/-- Embedding of `Node.removeItemFromInternal` from `node.go`: descend into the child at
`index`, run the predecessor-descent loop, move the last item of the leaf
so reached into `n.items[index]`, and truncate that leaf by one item.
Returns the updated internal node, the truncated leaf, and the affected
index path. -/
def removeItemFromInternalGo (store : pgnum → Option Node) (fuel : Nat) (n : Node)
    (index : Nat) : Option (Node × Node × List Nat) :=
  match store (n.childNodes.getD index 0) with
  | none => none
  | some l0 =>
      match riLoop store n.childNodes.length fuel l0 [index] with
      | none => none
      | some (lNode, affected) =>
          match lNode.items.getLast? with
          | none => none
          | some lastItem =>
              some ({ n with items := n.items.set index lastItem },
                    { lNode with items := lNode.items.dropLast }, affected)

/-- Modelled from the spec: the in-order-predecessor descent — from the
starting node repeatedly into the **current** node's last child until a
leaf is reached (`removeItemFromInternal` is specified to use the last
child of each node reached during the descent). -/
def specPredecessorLeaf (store : pgnum → Option Node) : Nat → Node → Option Node
  | 0, _ => none
  | fuel + 1, nd =>
      if nd.isLeaf then some nd
      else
        match store (nd.childNodes.getD (nd.childNodes.length - 1) 0) with
        | none => none
        | some c => specPredecessorLeaf store fuel c

/-- The cell-writing chain of one `serialize` loop iteration: value, value
length, key, key length, laid down right-to-left from `r`. -/
def cellChain (B : Buf) (r : Int) (key value : List Nat) : Buf :=
  writeByte (copyBytes (writeByte (copyBytes B (r - value.length) value)
    (r - value.length - 1) value.length)
    (r - value.length - 1 - key.length) key)
    (r - value.length - 1 - key.length - 1) key.length

/-- What one `serialize` item loop leaves in the buffer, for each item
index `i`: the child pointer (non-leaf) and the 2-byte offset at the left
cursor positions, and the key length / key / value length / value at the
recorded cell offset `r - cellBytes (xs.take (i+1))`. -/
def SerContent (B : Buf) (isLeaf : Bool) (xs : List Item) (cs : List pgnum)
    (l r : Int) : Prop :=
  ∀ i : Nat, i < xs.length →
    (0 : Int) ≤ r - cellBytes (xs.take (i + 1)) ∧
    (isLeaf = false → readBytesLE 8 B (l + 10 * (i : Int)) = cs.getD i 0) ∧
    readBytesLE 2 B
        (l + (if isLeaf then 2 else 10) * (i : Int) + (if isLeaf then 0 else 8))
      = (r - (cellBytes (xs.take (i + 1)) : Int)).toNat ∧
    B (r - cellBytes (xs.take (i + 1))) = (xs.getD i default).key.length ∧
    readRange B (r - cellBytes (xs.take (i + 1)) + 1) (xs.getD i default).key.length
      = (xs.getD i default).key ∧
    B (r - cellBytes (xs.take (i + 1)) + 1 + (xs.getD i default).key.length)
      = (xs.getD i default).value.length ∧
    readRange B
        (r - cellBytes (xs.take (i + 1)) + 1 + (xs.getD i default).key.length + 1)
      (xs.getD i default).value.length = (xs.getD i default).value

/-- The concrete B-tree for C1: the internal node on page 10 holds the key
`[50]` with left subtree rooted at page 1 (an internal node with three
children, pages 3/4/5) and right leaf at page 9.  The in-order predecessor
of `[50]` is `[40]`, the last item of the rightmost leaf (page 5) of the
left subtree. -/
def storeC1 : pgnum → Option Node := fun p =>
  if p = 1 then some (Node.mk 1 [Item.mk [20] [20], Item.mk [30] [30]] [3, 4, 5])
  else if p = 3 then some (Node.mk 3 [Item.mk [10] [10]] [])
  else if p = 4 then some (Node.mk 4 [Item.mk [25] [25]] [])
  else if p = 5 then some (Node.mk 5 [Item.mk [40] [40]] [])
  else if p = 9 then some (Node.mk 9 [Item.mk [60] [60]] [])
  else none

theorem range_map_getD {α β : Type} (l : List α) (f : α → β) (d : α) :
    (List.range l.length).map (fun i => f (l.getD i d)) = l.map f := by
  induction l with
  | nil => rfl
  | cons x xs ih =>
      rw [List.length_cons, List.range_succ_eq_map, List.map_cons, List.map_map]
      refine congrArg₂ (· :: ·) rfl ?_
      rw [← ih]
      exact List.map_congr_left (fun i _ => rfl)

/-- C2 (amended): `nodeSize` is 3 header bytes, plus for each item its key
length plus value length plus 8 child-pointer bytes, plus 8 bytes for the
trailing child pointer — with no 2 offset bytes per item. -/
theorem C2_nodeSize_amended (n : Node) :
    n.nodeSize =
      3 + (n.items.map (fun it => it.key.length + it.value.length + 8)).sum + 8 := by
  unfold Node.nodeSize Node.elementSize
  rw [range_map_getD n.items (fun it => it.key.length + it.value.length + pageNumSize) default]
  rfl

/-- C2 counterexample: for the node with the single item `([0],[0])` the
source's `nodeSize` is 21, not the claimed
3 + (klen + vlen + 2 offset bytes + 8) + 8 = 23. -/
theorem C2_nodeSize_counterexample :
    ¬ (Node.mk 0 [Item.mk [0] [0]] []).nodeSize =
      3 + (((Node.mk 0 [Item.mk [0] [0]] []).items.map
        (fun it => it.key.length + it.value.length + 2 + 8)).sum) + 8 := by
  decide

theorem txAllocPages_spec (k : Nat) (t : Tx) (fl : Freelist) :
    txAllocPages k t fl =
      ({ t with allocatedPageNums := t.allocatedPageNums ++ (nextPages k fl).1 },
       (nextPages k fl).2) := by
  induction k generalizing t fl with
  | zero => simp [txAllocPages, nextPages]
  | succ k ih =>
      simp only [txAllocPages, nextPages, txNewNode, ih]
      refine congrArg₂ Prod.mk ?_ rfl
      simp [List.append_assoc]

theorem nextPages_length (k : Nat) (fl : Freelist) : (nextPages k fl).1.length = k := by
  induction k generalizing fl with
  | zero => rfl
  | succ k ih => simp [nextPages, ih]

theorem foldl_releasePage (A : List pgnum) (fl : Freelist) :
    A.foldl Freelist.releasePage fl = ⟨fl.maxPage, fl.releasedPages ++ A⟩ := by
  induction A generalizing fl with
  | nil => simp
  | cons a as ih => simp [List.foldl_cons, ih, Freelist.releasePage]

theorem nextPages_concat (A : List pgnum) (m : pgnum) (r : List pgnum) :
    nextPages A.length ⟨m, r ++ A⟩ = (A.reverse, ⟨m, r⟩) := by
  induction A using List.reverseRecOn with
  | nil => simp [nextPages]
  | append_singleton as a ih =>
      have hlen : (as ++ [a]).length = as.length + 1 := by simp
      rw [hlen]
      have hget : ((r ++ (as ++ [a])).getLast?) = some a := by
        rw [← List.append_assoc]
        exact List.getLast?_concat _
      have hdrop : (r ++ (as ++ [a])).dropLast = r ++ as := by
        rw [← List.append_assoc]
        exact List.dropLast_concat
      simp only [nextPages, Freelist.getNextPage, hget, hdrop, ih]
      simp

/-- C4 (amended): if `Commit` of a write transaction fails part-way — a
node write or the free-list write returns an error — the error is surfaced
to the caller, and the transaction's in-memory state is NOT cleared: it is
exactly the state before the call (clearing happens only on success). -/
theorem C4_commit_error_state (writeN : Node → Option Unit) (writeFL : Option Unit) (t : Tx)
    (hw : t.write = true)
    (hfail : commitWriteFails writeN t.dirtyNodes = true ∨ writeFL = none) :
    txCommit writeN writeFL t = (t, some ()) := by
  unfold txCommit
  rcases hfail with h | h
  · simp [hw, h]
  · cases hc : commitWriteFails writeN t.dirtyNodes <;> simp [hw, h, hc]

theorem C4_commit_error_state_witness :
    txCommit (fun _ => none) (some ())
      (Tx.mk [(2, Node.mk 2 [] [])] [] [] true) =
      (Tx.mk [(2, Node.mk 2 [] [])] [] [] true, some ()) :=
  C4_commit_error_state (fun _ => none) (some ())
    (Tx.mk [(2, Node.mk 2 [] [])] [] [] true) rfl (Or.inl (by decide))

/-- C4 counterexample: a write transaction with one dirty node whose page
write fails returns the error, but its dirty-node map is NOT cleared at
that point, contradicting the claim as stated. -/
theorem C4_commit_counterexample :
    (txCommit (fun _ => none) (some ()) (Tx.mk [(2, Node.mk 2 [] [])] [] [] true)).2
      = some () ∧
    (txCommit (fun _ => none) (some ()) (Tx.mk [(2, Node.mk 2 [] [])] [] [] true)).1.dirtyNodes
      ≠ [] := by
  decide

theorem txRollback_of_write (t : Tx) (fl : Freelist) (store : pgnum → Option Node)
    (hw : t.write = true) :
    txRollback t fl store =
      ({ t with dirtyNodes := [], pagesToDelete := [], allocatedPageNums := [] },
       ⟨fl.maxPage, fl.releasedPages ++ t.allocatedPageNums⟩, store) := by
  simp [txRollback, hw, foldl_releasePage]

/-- C8: `Rollback` of a write transaction pushes every allocated page back
onto the free-list's released list, clears the transaction's state, writes
nothing to the page store, and a subsequent writer is issued exactly the
same page numbers (in reverse issue order, hence the same collection). -/
theorem C8_rollback_reissues_pages (k : Nat) (t0 : Tx) (fl0 : Freelist)
    (store : pgnum → Option Node)
    (hw : t0.write = true) (h0 : t0.allocatedPageNums = []) :
    (txRollback (txAllocPages k t0 fl0).1 (txAllocPages k t0 fl0).2 store).1.dirtyNodes = [] ∧
    (txRollback (txAllocPages k t0 fl0).1 (txAllocPages k t0 fl0).2 store).1.pagesToDelete = [] ∧
    (txRollback (txAllocPages k t0 fl0).1 (txAllocPages k t0 fl0).2 store).1.allocatedPageNums
      = [] ∧
    (txRollback (txAllocPages k t0 fl0).1 (txAllocPages k t0 fl0).2 store).2.2 = store ∧
    (txRollback (txAllocPages k t0 fl0).1 (txAllocPages k t0 fl0).2
        store).2.1.releasedPages
      = (txAllocPages k t0 fl0).2.releasedPages ++ (txAllocPages k t0 fl0).1.allocatedPageNums ∧
    (nextPages k (txRollback (txAllocPages k t0 fl0).1 (txAllocPages k t0 fl0).2
        store).2.1).1
      = (txAllocPages k t0 fl0).1.allocatedPageNums.reverse ∧
    ((nextPages k (txRollback (txAllocPages k t0 fl0).1 (txAllocPages k t0 fl0).2
        store).2.1).1).Perm (txAllocPages k t0 fl0).1.allocatedPageNums := by
  have hmain := nextPages_concat (nextPages k fl0).1 (nextPages k fl0).2.maxPage
    (nextPages k fl0).2.releasedPages
  rw [nextPages_length k fl0] at hmain
  rw [txAllocPages_spec, h0]
  simp only [List.nil_append]
  have hw' : (Tx.mk t0.dirtyNodes t0.pagesToDelete (nextPages k fl0).1 t0.write).write
      = true := hw
  rw [txRollback_of_write _ _ _ hw']
  refine ⟨rfl, rfl, rfl, rfl, rfl, ?_, ?_⟩
  · rw [hmain]
  · rw [hmain]
    exact List.reverse_perm _

theorem C8_rollback_reissues_pages_witness :
    (txRollback (txAllocPages 2 (Tx.mk [] [] [] true) (Freelist.mk 1 [])).1
        (txAllocPages 2 (Tx.mk [] [] [] true) (Freelist.mk 1 [])).2 (fun _ => none)).1.dirtyNodes
      = [] ∧
    (txRollback (txAllocPages 2 (Tx.mk [] [] [] true) (Freelist.mk 1 [])).1
        (txAllocPages 2 (Tx.mk [] [] [] true) (Freelist.mk 1 [])).2
        (fun _ => none)).1.pagesToDelete = [] ∧
    (txRollback (txAllocPages 2 (Tx.mk [] [] [] true) (Freelist.mk 1 [])).1
        (txAllocPages 2 (Tx.mk [] [] [] true) (Freelist.mk 1 [])).2
        (fun _ => none)).1.allocatedPageNums = [] ∧
    (txRollback (txAllocPages 2 (Tx.mk [] [] [] true) (Freelist.mk 1 [])).1
        (txAllocPages 2 (Tx.mk [] [] [] true) (Freelist.mk 1 [])).2
        (fun _ => none)).2.2 = (fun _ => none) ∧
    (txRollback (txAllocPages 2 (Tx.mk [] [] [] true) (Freelist.mk 1 [])).1
        (txAllocPages 2 (Tx.mk [] [] [] true) (Freelist.mk 1 [])).2
        (fun _ => none)).2.1.releasedPages
      = (txAllocPages 2 (Tx.mk [] [] [] true) (Freelist.mk 1 [])).2.releasedPages ++
          (txAllocPages 2 (Tx.mk [] [] [] true) (Freelist.mk 1 [])).1.allocatedPageNums ∧
    (nextPages 2 (txRollback (txAllocPages 2 (Tx.mk [] [] [] true) (Freelist.mk 1 [])).1
        (txAllocPages 2 (Tx.mk [] [] [] true) (Freelist.mk 1 [])).2 (fun _ => none)).2.1).1
      = (txAllocPages 2 (Tx.mk [] [] [] true) (Freelist.mk 1 [])).1.allocatedPageNums.reverse ∧
    ((nextPages 2 (txRollback (txAllocPages 2 (Tx.mk [] [] [] true) (Freelist.mk 1 [])).1
        (txAllocPages 2 (Tx.mk [] [] [] true) (Freelist.mk 1 [])).2 (fun _ => none)).2.1).1).Perm
      (txAllocPages 2 (Tx.mk [] [] [] true) (Freelist.mk 1 [])).1.allocatedPageNums :=
  C8_rollback_reissues_pages 2 (Tx.mk [] [] [] true) (Freelist.mk 1 []) (fun _ => none) rfl rfl

/-- C9: every mutating call on a read-only transaction — `CreateCollection`,
`DeleteCollection`, and a collection `Put` — fails with the
`WriteInsideReadTx` error and leaves the transaction and store state
unchanged. -/
theorem C9_write_inside_read_tx {σ : Type}
    (restC : List Nat → σ → Tx → Option Collection × Option DBError × σ × Tx)
    (restD : List Nat → σ → Tx → Option DBError × σ × Tx)
    (restP : List Nat → List Nat → σ → Tx → Option DBError × σ × Tx)
    (name key value : List Nat) (t : Tx) (s : σ) (hr : t.write = false) :
    txCreateCollection restC name t s = (none, some .writeInsideReadTx, s, t) ∧
    txDeleteCollection restD name t s = (some .writeInsideReadTx, s, t) ∧
    collectionPut restP key value t s = (some .writeInsideReadTx, s, t) := by
  refine ⟨?_, ?_, ?_⟩ <;>
    simp [txCreateCollection, txDeleteCollection, collectionPut, hr]

theorem C9_write_inside_read_tx_witness :
    txCreateCollection (σ := Unit) (fun _ s t => (none, none, s, t)) [1] (Tx.mk [] [] [] false) ()
      = (none, some .writeInsideReadTx, (), Tx.mk [] [] [] false) ∧
    txDeleteCollection (σ := Unit) (fun _ s t => (none, s, t)) [1] (Tx.mk [] [] [] false) ()
      = (some .writeInsideReadTx, (), Tx.mk [] [] [] false) ∧
    collectionPut (σ := Unit) (fun _ _ s t => (none, s, t)) [1] [2] (Tx.mk [] [] [] false) ()
      = (some .writeInsideReadTx, (), Tx.mk [] [] [] false) :=
  C9_write_inside_read_tx (fun _ s t => (none, none, s, t)) (fun _ s t => (none, s, t))
    (fun _ _ s t => (none, s, t)) [1] [1] [2] (Tx.mk [] [] [] false) () rfl

theorem writeByte_self (buf : Buf) (i : Int) (v : Nat) : writeByte buf i v i = v % 256 := by
  simp [writeByte]

theorem writeByte_other (buf : Buf) (i : Int) (v : Nat) (j : Int) (h : j ≠ i) :
    writeByte buf i v j = buf j := by
  simp [writeByte, h]

theorem writeBytesLE_frame :
    ∀ (w : Nat) (buf : Buf) (i : Int) (v : Nat) (j : Int), j < i ∨ i + w ≤ j →
      writeBytesLE w buf i v j = buf j := by
  intro w
  induction w with
  | zero => intro buf i v j _; rfl
  | succ w ih =>
      intro buf i v j h
      have hji : j ≠ i := by omega
      calc writeBytesLE (w + 1) buf i v j
          = writeBytesLE w (writeByte buf i v) (i + 1) (v / 256) j := rfl
        _ = writeByte buf i v j := ih _ _ _ _ (by push_cast at h ⊢; omega)
        _ = buf j := writeByte_other _ _ _ _ hji

theorem readBytesLE_congr :
    ∀ (w : Nat) (B B' : Buf) (i : Int), (∀ j : Int, i ≤ j → j < i + w → B' j = B j) →
      readBytesLE w B' i = readBytesLE w B i := by
  intro w
  induction w with
  | zero => intro B B' i _; rfl
  | succ w ih =>
      intro B B' i h
      have h0 : B' i = B i := h i le_rfl (by push_cast; omega)
      calc readBytesLE (w + 1) B' i = B' i + 256 * readBytesLE w B' (i + 1) := rfl
        _ = B i + 256 * readBytesLE w B (i + 1) := by
            rw [h0, ih B B' (i + 1) (fun j h1 h2 => h j (by omega) (by push_cast at h2 ⊢; omega))]
        _ = readBytesLE (w + 1) B i := rfl

theorem readBytesLE_writeBytesLE :
    ∀ (w : Nat) (buf : Buf) (i : Int) (v : Nat), v < 256 ^ w →
      readBytesLE w (writeBytesLE w buf i v) i = v := by
  intro w
  induction w with
  | zero => intro buf i v h; interval_cases v; rfl
  | succ w ih =>
      intro buf i v h
      calc readBytesLE (w + 1) (writeBytesLE (w + 1) buf i v) i
          = writeBytesLE w (writeByte buf i v) (i + 1) (v / 256) i
              + 256 * readBytesLE w (writeBytesLE w (writeByte buf i v) (i + 1) (v / 256))
                  (i + 1) := rfl
        _ = v % 256 + 256 * (v / 256) := by
            rw [writeBytesLE_frame w _ (i + 1) _ i (by omega), writeByte_self,
              ih _ (i + 1) (v / 256) (by
                have : 256 ^ (w + 1) = 256 ^ w * 256 := by ring
                omega)]
        _ = v := Nat.mod_add_div v 256

theorem copyBytes_frame :
    ∀ (data : List Nat) (buf : Buf) (i : Int) (j : Int),
      j < i ∨ i + data.length ≤ j → copyBytes buf i data j = buf j := by
  intro data
  induction data with
  | nil => intro buf i j _; rfl
  | cons b rest ih =>
      intro buf i j h
      have hji : j ≠ i := by
        rcases h with h | h
        · omega
        · simp only [List.length_cons] at h; push_cast at h; omega
      calc copyBytes buf i (b :: rest) j = copyBytes (writeByte buf i b) (i + 1) rest j := rfl
        _ = writeByte buf i b j := ih _ _ _ (by
            rcases h with h | h
            · left; omega
            · right
              simp only [List.length_cons] at h
              push_cast at h ⊢
              omega)
        _ = buf j := writeByte_other _ _ _ _ hji

theorem readRange_succ (B : Buf) (i : Int) (k : Nat) :
    readRange B i (k + 1) = B i :: readRange B (i + 1) k := by
  unfold readRange
  rw [List.range_succ_eq_map, List.map_cons, List.map_map]
  refine congrArg₂ (· :: ·) (by simp) ?_
  exact List.map_congr_left (fun j _ => by
    show B (i + ((j : Int) + 1)) = B (i + 1 + j)
    ring_nf)

theorem readRange_congr :
    ∀ (len : Nat) (B B' : Buf) (i : Int), (∀ j : Int, i ≤ j → j < i + len → B' j = B j) →
      readRange B' i len = readRange B i len := by
  intro len
  induction len with
  | zero => intro B B' i _; rfl
  | succ k ih =>
      intro B B' i h
      rw [readRange_succ, readRange_succ, h i le_rfl (by push_cast; omega),
        ih B B' (i + 1) (fun j h1 h2 => h j (by omega) (by push_cast at h2 ⊢; omega))]

theorem readRange_copyBytes :
    ∀ (data : List Nat) (buf : Buf) (i : Int), (∀ b ∈ data, b < 256) →
      readRange (copyBytes buf i data) i data.length = data := by
  intro data
  induction data with
  | nil => intro buf i _; rfl
  | cons b rest ih =>
      intro buf i hb
      rw [List.length_cons, readRange_succ]
      refine congrArg₂ (· :: ·) ?_ ?_
      · calc copyBytes (writeByte buf i b) (i + 1) rest i
            = writeByte buf i b i := copyBytes_frame _ _ _ _ (by left; omega)
          _ = b % 256 := writeByte_self _ _ _
          _ = b := Nat.mod_eq_of_lt (hb b (by simp))
      · exact ih (writeByte buf i b) (i + 1) (fun x hx => hb x (by simp [hx]))

theorem cellChain_frame (B : Buf) (r : Int) (key value : List Nat) (j : Int)
    (h : j < r - key.length - value.length - 2 ∨ r ≤ j) :
    cellChain B r key value j = B j := by
  unfold cellChain
  rw [writeByte_other _ _ _ _ (by omega),
    copyBytes_frame _ _ _ _ (by omega),
    writeByte_other _ _ _ _ (by omega),
    copyBytes_frame _ _ _ _ (by omega)]

theorem cellChain_klen (B : Buf) (r : Int) (key value : List Nat)
    (hk : key.length ≤ 255) :
    cellChain B r key value (r - key.length - value.length - 2) = key.length := by
  have hpos : r - (key.length : Int) - value.length - 2
      = r - value.length - 1 - key.length - 1 := by ring
  rw [hpos]
  unfold cellChain
  rw [writeByte_self]
  exact Nat.mod_eq_of_lt (by omega)

theorem cellChain_key (B : Buf) (r : Int) (key value : List Nat)
    (hb : ∀ b ∈ key, b < 256) :
    readRange (cellChain B r key value) (r - key.length - value.length - 2 + 1)
      key.length = key := by
  have hpos : r - (key.length : Int) - value.length - 2 + 1
      = r - value.length - 1 - key.length := by ring
  rw [hpos]
  unfold cellChain
  rw [readRange_congr key.length _ _ _
    (fun j h1 h2 => writeByte_other _ _ _ _ (by omega))]
  exact readRange_copyBytes key _ _ hb

theorem cellChain_vlen (B : Buf) (r : Int) (key value : List Nat)
    (hv : value.length ≤ 255) :
    cellChain B r key value (r - key.length - value.length - 2 + 1 + key.length)
      = value.length := by
  have hpos : r - (key.length : Int) - value.length - 2 + 1 + key.length
      = r - value.length - 1 := by ring
  rw [hpos]
  unfold cellChain
  rw [writeByte_other _ _ _ _ (by omega),
    copyBytes_frame _ _ _ _ (by omega),
    writeByte_self]
  exact Nat.mod_eq_of_lt (by omega)

theorem cellChain_value (B : Buf) (r : Int) (key value : List Nat)
    (hb : ∀ b ∈ value, b < 256) :
    readRange (cellChain B r key value)
      (r - key.length - value.length - 2 + 1 + key.length + 1) value.length = value := by
  have hpos : r - (key.length : Int) - value.length - 2 + 1 + key.length + 1
      = r - value.length := by ring
  rw [hpos]
  unfold cellChain
  rw [readRange_congr value.length _ _ _
    (fun j h1 h2 => writeByte_other _ _ _ _ (by omega))]
  rw [readRange_congr value.length _ _ _
    (fun j h1 h2 => copyBytes_frame _ _ _ _ (by omega))]
  rw [readRange_congr value.length _ _ _
    (fun j h1 h2 => writeByte_other _ _ _ _ (by omega))]
  exact readRange_copyBytes value _ _ hb

theorem serializeItemsGo_cons (isLeaf : Bool) (x : Item) (rest : List Item)
    (cs : List pgnum) (l r : Int) (buf : Buf) :
    serializeItemsGo isLeaf (x :: rest) cs l r buf =
      serializeItemsGo isLeaf rest (if isLeaf then cs else cs.tail)
        ((if isLeaf then l else l + 8) + 2)
        (r - x.value.length - 1 - x.key.length - 1)
        (cellChain
          (writeBytesLE 2 (if isLeaf then buf else writeBytesLE 8 buf l (cs.headD 0))
            (if isLeaf then l else l + 8)
            ((Int.emod (r - x.key.length - x.value.length - 2) 65536).toNat))
          r x.key x.value) := rfl

theorem tail_getD (cs : List pgnum) (i : Nat) : cs.tail.getD i 0 = cs.getD (i + 1) 0 := by
  cases cs <;> simp

theorem cellBytes_cons (x : Item) (xs : List Item) :
    cellBytes (x :: xs) = cellSz x + cellBytes xs := by
  simp [cellBytes]

theorem serializeItemsGo_spec (isLeaf : Bool) :
    ∀ (xs : List Item) (cs : List pgnum) (l r : Int) (buf : Buf),
      (∀ it ∈ xs, it.key.length ≤ 255 ∧ it.value.length ≤ 255 ∧
        (∀ b ∈ it.key, b < 256) ∧ (∀ b ∈ it.value, b < 256)) →
      (isLeaf = false → xs.length ≤ cs.length ∧ (∀ c ∈ cs, c < 2 ^ 64)) →
      0 ≤ l → r ≤ 65535 →
      l + (if isLeaf then 2 else 10) * (xs.length : Int) + (cellBytes xs : Int) ≤ r →
      (serializeItemsGo isLeaf xs cs l r buf).1
          = l + (if isLeaf then 2 else 10) * (xs.length : Int) ∧
      (serializeItemsGo isLeaf xs cs l r buf).2.1 = r - (cellBytes xs : Int) ∧
      (∀ j : Int,
        (j < l ∨ (l + (if isLeaf then 2 else 10) * (xs.length : Int) ≤ j
            ∧ j < r - (cellBytes xs : Int)) ∨ r ≤ j) →
        (serializeItemsGo isLeaf xs cs l r buf).2.2 j = buf j) ∧
      SerContent (serializeItemsGo isLeaf xs cs l r buf).2.2 isLeaf xs cs l r := by
  intro xs
  induction xs with
  | nil =>
      intro cs l r buf _ _ _ _ _
      refine ⟨by simp [serializeItemsGo, cellBytes], by simp [serializeItemsGo, cellBytes],
        fun j _ => rfl, fun i hi => absurd hi (by simp)⟩
  | cons x rest ih =>
      intro cs l r buf hb hcs hl hr hgeo
      obtain ⟨hk255, hv255, hkb, hvb⟩ := hb x (List.mem_cons_self x rest)
      cases isLeaf with
      | false =>
          simp only [Bool.false_eq_true, if_false] at hgeo ⊢
          have hG : l + 10 * ((rest.length : Int) + 1)
              + (↑x.key.length + ↑x.value.length + 2 + ↑(cellBytes rest)) ≤ r := by
            simp only [List.length_cons, cellBytes_cons, cellSz] at hgeo
            push_cast at hgeo ⊢
            omega
          obtain ⟨hcsl, hcsb⟩ := hcs rfl
          have hcsl' : rest.length + 1 ≤ cs.length := by simpa using hcsl
          have htl : rest.length ≤ cs.tail.length := by
            simp only [List.length_tail]
            omega
          have hc64 : cs.headD 0 < 2 ^ 64 := by
            cases cs with
            | nil => positivity
            | cons c cs' => exact hcsb c (by simp)
          have hhead : cs.headD 0 = cs.getD 0 0 := by cases cs <;> rfl
          obtain ⟨ihL, ihR, ihF, ihC⟩ :=
            ih cs.tail (l + 8 + 2) (r - ↑x.value.length - 1 - ↑x.key.length - 1)
              (cellChain
                (writeBytesLE 2 (writeBytesLE 8 buf l (cs.headD 0)) (l + 8)
                  ((Int.emod (r - x.key.length - x.value.length - 2) 65536).toNat))
                r x.key x.value)
              (fun it hit => hb it (List.mem_cons_of_mem x hit))
              (fun _ => ⟨htl, fun c hc => hcsb c (List.mem_of_mem_tail hc)⟩)
              (by omega) (by omega)
              (by simp only [Bool.false_eq_true, if_false]; push_cast; omega)
          simp only [Bool.false_eq_true, if_false] at ihL ihR ihF ihC
          rw [serializeItemsGo_cons]
          simp only [Bool.false_eq_true, if_false]
          refine ⟨?_, ?_, ?_, ?_⟩
          · rw [ihL]
            simp only [List.length_cons]
            push_cast
            ring
          · rw [ihR]
            simp only [List.length_cons, cellBytes_cons, cellSz]
            push_cast
            ring
          · intro j hj
            have hj0 : j < l ∨ ((l + 10 * (rest.length : Int) + 10 ≤ j)
                ∧ j < r - ↑x.key.length - ↑x.value.length - 2 - ↑(cellBytes rest))
                ∨ r ≤ j := by
              rcases hj with hj | ⟨hj1, hj2⟩ | hj
              · exact Or.inl hj
              · refine Or.inr (Or.inl ⟨?_, ?_⟩)
                · simp only [List.length_cons] at hj1
                  push_cast at hj1 ⊢
                  omega
                · simp only [cellBytes_cons, cellSz] at hj2
                  push_cast at hj2 ⊢
                  omega
              · exact Or.inr (Or.inr hj)
            rw [ihF j (by
              rcases hj0 with hj' | ⟨hj1, hj2⟩ | hj'
              · exact Or.inl (by omega)
              · exact Or.inr (Or.inl ⟨by omega, by push_cast; omega⟩)
              · exact Or.inr (Or.inr (by omega)))]
            rw [cellChain_frame _ _ _ _ j (by omega)]
            rw [writeBytesLE_frame 2 _ _ _ j (by omega)]
            exact writeBytesLE_frame 8 _ _ _ j (by omega)
          · unfold SerContent
            intro i hi
            simp only [Bool.false_eq_true, if_false]
            cases i with
            | zero =>
                have hcb1 : (cellBytes ((x :: rest).take (0 + 1)) : Int)
                    = ↑x.key.length + ↑x.value.length + 2 := by
                  simp only [List.take_succ_cons, List.take_zero, cellBytes_cons, cellSz]
                  push_cast
                  simp [cellBytes]
                have hgd : (x :: rest).getD 0 default = x := by simp
                have hoffnn : (0 : Int) ≤ r - ↑x.key.length - ↑x.value.length - 2 := by
                  omega
                have hofflt : r - (x.key.length : Int) - ↑x.value.length - 2 < 65536 := by
                  omega
                have hemod : Int.emod (r - ↑x.key.length - ↑x.value.length - 2) 65536
                    = r - ↑x.key.length - ↑x.value.length - 2 :=
                  Int.emod_eq_of_lt hoffnn hofflt
                refine ⟨by rw [hcb1]; omega, ?_, ?_, ?_, ?_, ?_, ?_⟩
                · intro _
                  have hpos : l + 10 * ((0 : Nat) : Int) = l := by push_cast; ring
                  rw [hpos]
                  rw [readBytesLE_congr 8 _ _ l
                    (fun j h1 h2 => ihF j (Or.inl (by push_cast at h2; omega)))]
                  rw [readBytesLE_congr 8 _ _ l
                    (fun j h1 h2 => cellChain_frame _ _ _ _ j (Or.inl (by
                      push_cast at h2; omega)))]
                  rw [readBytesLE_congr 8 _ _ l
                    (fun j h1 h2 => writeBytesLE_frame 2 _ _ _ j (Or.inl (by
                      push_cast at h2; omega)))]
                  rw [readBytesLE_writeBytesLE 8 buf l (cs.headD 0) (by norm_num at hc64 ⊢; exact hc64)]
                  rw [hhead]
                · have hpos : l + 10 * ((0 : Nat) : Int) + 8 = l + 8 := by push_cast; ring
                  rw [hpos, hcb1]
                  rw [readBytesLE_congr 2 _ _ (l + 8)
                    (fun j h1 h2 => ihF j (Or.inl (by push_cast at h2; omega)))]
                  rw [readBytesLE_congr 2 _ _ (l + 8)
                    (fun j h1 h2 => cellChain_frame _ _ _ _ j (Or.inl (by
                      push_cast at h2; omega)))]
                  rw [readBytesLE_writeBytesLE 2 _ (l + 8) _ (by
                    rw [hemod]
                    norm_num
                    omega)]
                  rw [hemod]
                  congr 1
                  ring
                · rw [hcb1, hgd]
                  have hoffeq : r - ((x.key.length : Int) + ↑x.value.length + 2)
                      = r - ↑x.key.length - ↑x.value.length - 2 := by ring
                  rw [hoffeq]
                  rw [ihF _ (Or.inr (Or.inr (by omega)))]
                  exact cellChain_klen _ _ _ _ hk255
                · rw [hcb1, hgd]
                  have hoffeq : r - ((x.key.length : Int) + ↑x.value.length + 2) + 1
                      = r - ↑x.key.length - ↑x.value.length - 2 + 1 := by ring
                  rw [hoffeq]
                  rw [readRange_congr _ _ _ _
                    (fun j h1 h2 => ihF j (Or.inr (Or.inr (by omega))))]
                  exact cellChain_key _ _ _ _ hkb
                · rw [hcb1, hgd]
                  have hoffeq : r - ((x.key.length : Int) + ↑x.value.length + 2) + 1
                        + ↑x.key.length
                      = r - ↑x.key.length - ↑x.value.length - 2 + 1 + ↑x.key.length := by
                    ring
                  rw [hoffeq]
                  rw [ihF _ (Or.inr (Or.inr (by omega)))]
                  exact cellChain_vlen _ _ _ _ hv255
                · rw [hcb1, hgd]
                  have hoffeq : r - ((x.key.length : Int) + ↑x.value.length + 2) + 1
                        + ↑x.key.length + 1
                      = r - ↑x.key.length - ↑x.value.length - 2 + 1 + ↑x.key.length + 1 := by
                    ring
                  rw [hoffeq]
                  rw [readRange_congr _ _ _ _
                    (fun j h1 h2 => ihF j (Or.inr (Or.inr (by omega))))]
                  exact cellChain_value _ _ _ _ hvb
            | succ i' =>
                have hi' : i' < rest.length := by simpa using hi
                obtain ⟨g1, g2, g3, g4, g5, g6, g7⟩ := ihC i' hi'
                have hcbeq : (cellBytes ((x :: rest).take (i' + 1 + 1)) : Int)
                    = ↑x.key.length + ↑x.value.length + 2
                      + ↑(cellBytes (rest.take (i' + 1))) := by
                  rw [List.take_succ_cons, cellBytes_cons]
                  simp only [cellSz]
                  push_cast
                  ring
                have hoff2 : r - (cellBytes ((x :: rest).take (i' + 1 + 1)) : Int)
                    = r - ↑x.value.length - 1 - ↑x.key.length - 1
                      - ↑(cellBytes (rest.take (i' + 1))) := by
                  rw [hcbeq]; ring
                have hgd : (x :: rest).getD (i' + 1) default = rest.getD i' default := by
                  simp
                have hp1 : l + 10 * (((i' + 1 : Nat)) : Int) = l + 8 + 2 + 10 * (i' : Int) := by
                  push_cast
                  ring
                have hp2 : l + 10 * (((i' + 1 : Nat)) : Int) + 8
                    = l + 8 + 2 + 10 * (i' : Int) + 8 := by
                  push_cast
                  ring
                refine ⟨by rw [hoff2]; have := g1; omega, ?_, ?_, ?_, ?_, ?_, ?_⟩
                · intro _
                  rw [hp1, ← tail_getD]
                  exact g2 rfl
                · rw [hp2, hoff2]
                  exact g3
                · rw [hoff2, hgd]
                  exact g4
                · rw [hoff2, hgd]
                  exact g5
                · rw [hoff2, hgd]
                  exact g6
                · rw [hoff2, hgd]
                  exact g7
      | true =>
          simp only [if_true] at hgeo ⊢
          have hG : l + 2 * ((rest.length : Int) + 1)
              + (↑x.key.length + ↑x.value.length + 2 + ↑(cellBytes rest)) ≤ r := by
            simp only [List.length_cons, cellBytes_cons, cellSz] at hgeo
            push_cast at hgeo ⊢
            omega
          obtain ⟨ihL, ihR, ihF, ihC⟩ :=
            ih cs (l + 2) (r - ↑x.value.length - 1 - ↑x.key.length - 1)
              (cellChain
                (writeBytesLE 2 buf l
                  ((Int.emod (r - x.key.length - x.value.length - 2) 65536).toNat))
                r x.key x.value)
              (fun it hit => hb it (List.mem_cons_of_mem x hit))
              (fun h => absurd h (by simp))
              (by omega) (by omega)
              (by simp only [if_true]; push_cast; omega)
          simp only [if_true] at ihL ihR ihF ihC
          rw [serializeItemsGo_cons]
          simp only [if_true]
          refine ⟨?_, ?_, ?_, ?_⟩
          · rw [ihL]
            simp only [List.length_cons]
            push_cast
            ring
          · rw [ihR]
            simp only [List.length_cons, cellBytes_cons, cellSz]
            push_cast
            ring
          · intro j hj
            have hj0 : j < l ∨ ((l + 2 * (rest.length : Int) + 2 ≤ j)
                ∧ j < r - ↑x.key.length - ↑x.value.length - 2 - ↑(cellBytes rest))
                ∨ r ≤ j := by
              rcases hj with hj | ⟨hj1, hj2⟩ | hj
              · exact Or.inl hj
              · refine Or.inr (Or.inl ⟨?_, ?_⟩)
                · simp only [List.length_cons] at hj1
                  push_cast at hj1 ⊢
                  omega
                · simp only [cellBytes_cons, cellSz] at hj2
                  push_cast at hj2 ⊢
                  omega
              · exact Or.inr (Or.inr hj)
            rw [ihF j (by
              rcases hj0 with hj' | ⟨hj1, hj2⟩ | hj'
              · exact Or.inl (by omega)
              · exact Or.inr (Or.inl ⟨by omega, by push_cast; omega⟩)
              · exact Or.inr (Or.inr (by omega)))]
            rw [cellChain_frame _ _ _ _ j (by omega)]
            exact writeBytesLE_frame 2 _ _ _ j (by omega)
          · unfold SerContent
            intro i hi
            simp only [if_true]
            cases i with
            | zero =>
                have hcb1 : (cellBytes ((x :: rest).take (0 + 1)) : Int)
                    = ↑x.key.length + ↑x.value.length + 2 := by
                  simp only [List.take_succ_cons, List.take_zero, cellBytes_cons, cellSz]
                  push_cast
                  simp [cellBytes]
                have hgd : (x :: rest).getD 0 default = x := by simp
                have hoffnn : (0 : Int) ≤ r - ↑x.key.length - ↑x.value.length - 2 := by
                  omega
                have hofflt : r - (x.key.length : Int) - ↑x.value.length - 2 < 65536 := by
                  omega
                have hemod : Int.emod (r - ↑x.key.length - ↑x.value.length - 2) 65536
                    = r - ↑x.key.length - ↑x.value.length - 2 :=
                  Int.emod_eq_of_lt hoffnn hofflt
                refine ⟨by rw [hcb1]; omega, fun h => absurd h (by simp), ?_, ?_, ?_, ?_, ?_⟩
                · have hpos : l + 2 * ((0 : Nat) : Int) + 0 = l := by push_cast; ring
                  rw [hpos, hcb1]
                  rw [readBytesLE_congr 2 _ _ l
                    (fun j h1 h2 => ihF j (Or.inl (by push_cast at h2; omega)))]
                  rw [readBytesLE_congr 2 _ _ l
                    (fun j h1 h2 => cellChain_frame _ _ _ _ j (Or.inl (by
                      push_cast at h2; omega)))]
                  rw [readBytesLE_writeBytesLE 2 _ l _ (by
                    rw [hemod]
                    norm_num
                    omega)]
                  rw [hemod]
                  congr 1
                  ring
                · rw [hcb1, hgd]
                  have hoffeq : r - ((x.key.length : Int) + ↑x.value.length + 2)
                      = r - ↑x.key.length - ↑x.value.length - 2 := by ring
                  rw [hoffeq]
                  rw [ihF _ (Or.inr (Or.inr (by omega)))]
                  exact cellChain_klen _ _ _ _ hk255
                · rw [hcb1, hgd]
                  have hoffeq : r - ((x.key.length : Int) + ↑x.value.length + 2) + 1
                      = r - ↑x.key.length - ↑x.value.length - 2 + 1 := by ring
                  rw [hoffeq]
                  rw [readRange_congr _ _ _ _
                    (fun j h1 h2 => ihF j (Or.inr (Or.inr (by omega))))]
                  exact cellChain_key _ _ _ _ hkb
                · rw [hcb1, hgd]
                  have hoffeq : r - ((x.key.length : Int) + ↑x.value.length + 2) + 1
                        + ↑x.key.length
                      = r - ↑x.key.length - ↑x.value.length - 2 + 1 + ↑x.key.length := by
                    ring
                  rw [hoffeq]
                  rw [ihF _ (Or.inr (Or.inr (by omega)))]
                  exact cellChain_vlen _ _ _ _ hv255
                · rw [hcb1, hgd]
                  have hoffeq : r - ((x.key.length : Int) + ↑x.value.length + 2) + 1
                        + ↑x.key.length + 1
                      = r - ↑x.key.length - ↑x.value.length - 2 + 1 + ↑x.key.length + 1 := by
                    ring
                  rw [hoffeq]
                  rw [readRange_congr _ _ _ _
                    (fun j h1 h2 => ihF j (Or.inr (Or.inr (by omega))))]
                  exact cellChain_value _ _ _ _ hvb
            | succ i' =>
                have hi' : i' < rest.length := by simpa using hi
                obtain ⟨g1, g2, g3, g4, g5, g6, g7⟩ := ihC i' hi'
                have hcbeq : (cellBytes ((x :: rest).take (i' + 1 + 1)) : Int)
                    = ↑x.key.length + ↑x.value.length + 2
                      + ↑(cellBytes (rest.take (i' + 1))) := by
                  rw [List.take_succ_cons, cellBytes_cons]
                  simp only [cellSz]
                  push_cast
                  ring
                have hoff2 : r - (cellBytes ((x :: rest).take (i' + 1 + 1)) : Int)
                    = r - ↑x.value.length - 1 - ↑x.key.length - 1
                      - ↑(cellBytes (rest.take (i' + 1))) := by
                  rw [hcbeq]; ring
                have hgd : (x :: rest).getD (i' + 1) default = rest.getD i' default := by
                  simp
                have hp2 : l + 2 * (((i' + 1 : Nat)) : Int) + 0
                    = l + 2 + 2 * (i' : Int) + 0 := by
                  push_cast
                  ring
                refine ⟨by rw [hoff2]; have := g1; omega, fun h => absurd h (by simp),
                  ?_, ?_, ?_, ?_, ?_⟩
                · rw [hp2, hoff2]
                  exact g3
                · rw [hoff2, hgd]
                  exact g4
                · rw [hoff2, hgd]
                  exact g5
                · rw [hoff2, hgd]
                  exact g6
                · rw [hoff2, hgd]
                  exact g7

theorem SerContent_tail (B : Buf) (isLeaf : Bool) (x : Item) (rest : List Item)
    (cs : List pgnum) (l r : Int) (h : SerContent B isLeaf (x :: rest) cs l r) :
    SerContent B isLeaf rest cs.tail (l + (if isLeaf then 2 else 10)) (r - cellSz x) := by
  intro i hi
  obtain ⟨g1, g2, g3, g4, g5, g6, g7⟩ := h (i + 1) (by simpa using hi)
  have hcbeq : (cellBytes ((x :: rest).take (i + 1 + 1)) : Int)
      = ↑(cellSz x) + ↑(cellBytes (rest.take (i + 1))) := by
    rw [List.take_succ_cons, cellBytes_cons]
    push_cast
    ring
  have hoff2 : r - (cellBytes ((x :: rest).take (i + 1 + 1)) : Int)
      = r - ↑(cellSz x) - ↑(cellBytes (rest.take (i + 1))) := by rw [hcbeq]; ring
  have hgd : (x :: rest).getD (i + 1) default = rest.getD i default := by simp
  have hp1 : l + 10 * (((i + 1 : Nat)) : Int) = l + 10 + 10 * (i : Int) := by
    push_cast; ring
  have hp2 : l + (if isLeaf then (2 : Int) else 10) * (((i + 1 : Nat)) : Int)
        + (if isLeaf then (0 : Int) else 8)
      = (l + (if isLeaf then 2 else 10)) + (if isLeaf then (2 : Int) else 10) * (i : Int)
        + (if isLeaf then (0 : Int) else 8) := by
    cases isLeaf <;> simp <;> push_cast <;> ring
  rw [hoff2] at g1 g3 g4 g5 g6 g7
  rw [hgd] at g4 g5 g6 g7
  rw [hp1] at g2
  rw [hp2] at g3
  rw [tail_getD]
  refine ⟨by omega, ?_, g3, g4, g5, g6, g7⟩
  intro hL
  rw [show l + (if isLeaf then (2 : Int) else 10) = l + 10 by rw [hL]; simp]
  exact g2 hL

theorem deserializeItemsGo_spec (B : Buf) (isLeaf : Bool) :
    ∀ (xs : List Item) (cs : List pgnum) (l r : Int) (cs0 : List pgnum) (its0 : List Item),
      SerContent B isLeaf xs cs l r →
      (isLeaf = false → xs.length ≤ cs.length) →
      deserializeItemsGo B (if isLeaf then 1 else 0) xs.length l cs0 its0
        = (l + (if isLeaf then 2 else 10) * (xs.length : Int),
           cs0 ++ (if isLeaf then [] else cs.take xs.length),
           its0 ++ xs) := by
  intro xs
  induction xs with
  | nil =>
      intro cs l r cs0 its0 _ _
      simp [deserializeItemsGo]
  | cons x rest ih =>
      intro cs l r cs0 its0 hsc hlen
      obtain ⟨f1, f2, f3, f4, f5, f6, f7⟩ := hsc 0 (by simp)
      have htake1 : (cellBytes ((x :: rest).take (0 + 1)) : Int) = cellSz x := by
        simp [cellBytes]
      have hgd0 : (x :: rest).getD 0 default = x := by simp
      rw [htake1] at f1 f3 f4 f5 f6 f7
      rw [hgd0] at f4 f5 f6 f7
      have hofftn : (((r - (cellSz x : Int)).toNat : Nat) : Int) = r - (cellSz x : Int) :=
        Int.toNat_of_nonneg f1
      have hx : Item.mk x.key x.value = x := rfl
      cases isLeaf with
      | false =>
          simp only [Bool.false_eq_true, if_false] at ih ⊢
          simp only [List.length_cons]
          have hcs1 : rest.length + 1 ≤ cs.length := by simpa using hlen rfl
          cases cs with
          | nil => exact absurd hcs1 (by simp)
          | cons c0 cs' =>
              have hchild : readBytesLE 8 B l = c0 := by
                have h2 := f2 rfl
                rw [show l + 10 * (((0 : Nat)) : Int) = l by push_cast; ring] at h2
                simpa using h2
              have hslot : readBytesLE 2 B (l + 8) = (r - (cellSz x : Int)).toNat := by
                have h3 := f3
                simp only [Bool.false_eq_true, if_false] at h3
                rw [show l + 10 * (((0 : Nat)) : Int) + 8 = l + 8 by push_cast; ring] at h3
                exact h3
              have hstep : deserializeItemsGo B 0 (rest.length + 1) l cs0 its0
                  = deserializeItemsGo B 0 rest.length (l + 8 + 2)
                      (cs0 ++ [readBytesLE 8 B l])
                      (its0 ++ [Item.mk
                        (readRange B
                          (((readBytesLE 2 B (l + 8) : Nat) : Int) + 1)
                          (B ((readBytesLE 2 B (l + 8) : Nat) : Int)))
                        (readRange B
                          (((readBytesLE 2 B (l + 8) : Nat) : Int) + 1
                            + (B ((readBytesLE 2 B (l + 8) : Nat) : Int) : Int) + 1)
                          (B (((readBytesLE 2 B (l + 8) : Nat) : Int) + 1
                            + (B ((readBytesLE 2 B (l + 8) : Nat) : Int) : Int))))]) := rfl
              rw [hstep, hchild, hslot, hofftn, f4, f5, f6, f7, hx]
              rw [show (l + 8 + 2 : Int) = l + 10 by ring]
              rw [ih cs' (l + 10) (r - cellSz x) (cs0 ++ [c0]) (its0 ++ [x])
                (by
                  have hT := SerContent_tail B false x rest (c0 :: cs') l r hsc
                  simpa using hT)
                (fun _ => by simp only [List.length_cons] at hcs1; omega)]
              refine congrArg₂ Prod.mk ?_ (congrArg₂ Prod.mk ?_ ?_)
              · push_cast
                ring
              · rw [List.take_succ_cons]
                simp
              · simp
      | true =>
          simp only [if_true] at ih ⊢
          simp only [List.length_cons]
          have hslot : readBytesLE 2 B l = (r - (cellSz x : Int)).toNat := by
            have h3 := f3
            simp only [if_true] at h3
            rw [show l + 2 * (((0 : Nat)) : Int) + 0 = l by push_cast; ring] at h3
            exact h3
          have hstep : deserializeItemsGo B 1 (rest.length + 1) l cs0 its0
              = deserializeItemsGo B 1 rest.length (l + 2) cs0
                  (its0 ++ [Item.mk
                    (readRange B
                      (((readBytesLE 2 B l : Nat) : Int) + 1)
                      (B ((readBytesLE 2 B l : Nat) : Int)))
                    (readRange B
                      (((readBytesLE 2 B l : Nat) : Int) + 1
                        + (B ((readBytesLE 2 B l : Nat) : Int) : Int) + 1)
                      (B (((readBytesLE 2 B l : Nat) : Int) + 1
                        + (B ((readBytesLE 2 B l : Nat) : Int) : Int))))]) := rfl
          rw [hstep, hslot, hofftn, f4, f5, f6, f7, hx]
          rw [ih cs.tail (l + 2) (r - cellSz x) cs0 (its0 ++ [x])
            (by
              have hT := SerContent_tail B true x rest cs l r hsc
              simpa using hT)
            (fun h => absurd h (by simp))]
          refine congrArg₂ Prod.mk ?_ (congrArg₂ Prod.mk ?_ ?_)
          · push_cast
            ring
          · simp
          · simp

theorem getLastD_lt_of_forall (cs : List pgnum) (h : cs ≠ []) (hb : ∀ c ∈ cs, c < 2 ^ 64) :
    cs.getLastD 0 < 2 ^ 64 := by
  rw [List.getLastD_eq_getLast?, List.getLast?_eq_getLast cs h]
  exact hb _ (List.getLast_mem h)

theorem take_append_getLastD (cs : List pgnum) (k : Nat) (h : cs.length = k + 1) :
    cs.take k ++ [cs.getLastD 0] = cs := by
  have hne : cs ≠ [] := by
    intro heq
    rw [heq] at h
    simp at h
  rw [List.getLastD_eq_getLast?, List.getLast?_eq_getLast cs hne]
  have hdl : cs.dropLast = cs.take k := by
    rw [List.dropLast_eq_take, h]
    simp
  rw [← hdl]
  exact List.dropLast_append_getLast hne

/-- C3: for a valid node — keys and values at most 255 bytes of byte
values, child list empty or of length `items+1` with 64-bit page numbers,
serialized size within one page (strictly: `serialize` never touches the
page's last byte), and page size at most 65536 so the 2-byte offsets are
faithful — deserializing the buffer produced by `serialize` returns
exactly the node's items and child page numbers. -/
theorem C3_serialize_deserialize (P : Nat) (n : Node) (buf : Buf)
    (hkv : ∀ it ∈ n.items, it.key.length ≤ 255 ∧ it.value.length ≤ 255 ∧
      (∀ b ∈ it.key, b < 256) ∧ (∀ b ∈ it.value, b < 256))
    (hch : n.childNodes = [] ∨ n.childNodes.length = n.items.length + 1)
    (hch64 : ∀ c ∈ n.childNodes, c < 2 ^ 64)
    (hsize : serializedBytes n < P)
    (hP : P ≤ 65536) :
    deserializeGo (serializeGo P n buf) = (n.items, n.childNodes) := by
  rcases hch with hleafCase | hlen
  · -- leaf node
    have hlf : n.isLeaf = true := by simp [Node.isLeaf, hleafCase]
    simp only [serializedBytes, hlf, if_true] at hsize
    obtain ⟨sL, sR, sF, sC⟩ :=
      serializeItemsGo_spec true n.items n.childNodes 3 ((P : Int) - 1)
        (writeBytesLE 2 (writeByte buf 0 1) 1 n.items.length)
        hkv (fun h => absurd h (by simp)) (by norm_num) (by omega)
        (by simp only [if_true]; push_cast; omega)
    simp only [if_true] at sL sR sF sC
    have hser : serializeGo P n buf
        = (serializeItemsGo true n.items n.childNodes 3 ((P : Int) - 1)
            (writeBytesLE 2 (writeByte buf 0 1) 1 n.items.length)).2.2 := by
      unfold serializeGo
      rw [hlf]
      simp only [if_true]
    set B := (serializeItemsGo true n.items n.childNodes 3 ((P : Int) - 1)
      (writeBytesLE 2 (writeByte buf 0 1) 1 n.items.length)).2.2 with hB
    have hflag : B 0 = 1 := by
      rw [sF 0 (Or.inl (by norm_num))]
      rw [writeBytesLE_frame 2 _ 1 _ 0 (by norm_num)]
      rw [writeByte_self]
    have hcount : readBytesLE 2 B 1 = n.items.length := by
      rw [readBytesLE_congr 2 _ _ 1
        (fun j h1 h2 => sF j (Or.inl (by push_cast at h2; omega)))]
      exact readBytesLE_writeBytesLE 2 _ 1 _ (by norm_num; omega)
    have hD := deserializeItemsGo_spec B true n.items n.childNodes 3 ((P : Int) - 1)
      [] [] sC (fun h => absurd h (by simp))
    simp only [if_true] at hD
    rw [hser]
    unfold deserializeGo
    simp only [hflag, hcount, hD]
    simp [hleafCase]
  · -- non-leaf node
    have hlf : n.isLeaf = false := by
      simp only [Node.isLeaf]
      simp [hlen]
    simp only [serializedBytes, hlf, Bool.false_eq_true, if_false] at hsize
    obtain ⟨sL, sR, sF, sC⟩ :=
      serializeItemsGo_spec false n.items n.childNodes 3 ((P : Int) - 1)
        (writeBytesLE 2 (writeByte buf 0 0) 1 n.items.length)
        hkv (fun _ => ⟨by omega, hch64⟩) (by norm_num) (by omega)
        (by simp only [Bool.false_eq_true, if_false]; push_cast; omega)
    simp only [Bool.false_eq_true, if_false] at sL sR sF sC
    have hser : serializeGo P n buf
        = writeBytesLE 8
            (serializeItemsGo false n.items n.childNodes 3 ((P : Int) - 1)
              (writeBytesLE 2 (writeByte buf 0 0) 1 n.items.length)).2.2
            (serializeItemsGo false n.items n.childNodes 3 ((P : Int) - 1)
              (writeBytesLE 2 (writeByte buf 0 0) 1 n.items.length)).1
            (n.childNodes.getLastD 0) := by
      unfold serializeGo
      rw [hlf]
      simp only [Bool.false_eq_true, if_false]
    set B0 := (serializeItemsGo false n.items n.childNodes 3 ((P : Int) - 1)
      (writeBytesLE 2 (writeByte buf 0 0) 1 n.items.length)).2.2 with hB0
    rw [sL] at hser
    set Bf := writeBytesLE 8 B0 (3 + 10 * (n.items.length : Int))
      (n.childNodes.getLastD 0) with hBf
    have hflag : Bf 0 = 0 := by
      rw [hBf]
      rw [writeBytesLE_frame 8 _ _ _ 0 (by omega)]
      rw [sF 0 (Or.inl (by norm_num))]
      rw [writeBytesLE_frame 2 _ 1 _ 0 (by norm_num)]
      rw [writeByte_self]
    have hcount : readBytesLE 2 Bf 1 = n.items.length := by
      rw [hBf]
      rw [readBytesLE_congr 2 _ _ 1
        (fun j h1 h2 => writeBytesLE_frame 8 _ _ _ j (by push_cast at h2; omega))]
      rw [readBytesLE_congr 2 _ _ 1
        (fun j h1 h2 => sF j (Or.inl (by push_cast at h2; omega)))]
      exact readBytesLE_writeBytesLE 2 _ 1 _ (by norm_num; omega)
    have hSCf : SerContent Bf false n.items n.childNodes 3 ((P : Int) - 1) := by
      rw [hBf]
      intro i hi
      obtain ⟨g1, g2, g3, g4, g5, g6, g7⟩ := sC i hi
      have hcble : cellBytes (n.items.take (i + 1)) ≤ cellBytes n.items := by
        unfold cellBytes
        have := List.take_append_drop (i + 1) n.items
        calc ((n.items.take (i + 1)).map cellSz).sum
            ≤ ((n.items.take (i + 1)).map cellSz).sum
              + ((n.items.drop (i + 1)).map cellSz).sum := by omega
          _ = (n.items.map cellSz).sum := by
              rw [← List.sum_append, ← List.map_append, List.take_append_drop]
      refine ⟨g1, ?_, ?_, ?_, ?_, ?_, ?_⟩
      · intro _
        rw [readBytesLE_congr 8 _ _ _
          (fun j h1 h2 => writeBytesLE_frame 8 _ _ _ j (by push_cast at h1 h2; omega))]
        exact g2 rfl
      · simp only [Bool.false_eq_true, if_false] at g3 ⊢
        rw [readBytesLE_congr 2 _ _ _
          (fun j h1 h2 => writeBytesLE_frame 8 _ _ _ j (by push_cast at h1 h2; omega))]
        exact g3
      · rw [writeBytesLE_frame 8 _ _ _ _ (by push_cast; omega)]
        exact g4
      · rw [readRange_congr _ _ _ _
          (fun j h1 h2 => writeBytesLE_frame 8 _ _ _ j (by push_cast at h1; omega))]
        exact g5
      · rw [writeBytesLE_frame 8 _ _ _ _ (by push_cast; omega)]
        exact g6
      · rw [readRange_congr _ _ _ _
          (fun j h1 h2 => writeBytesLE_frame 8 _ _ _ j (by push_cast at h1; omega))]
        exact g7
    have hD := deserializeItemsGo_spec Bf false n.items n.childNodes 3 ((P : Int) - 1)
      [] [] hSCf (fun _ => by omega)
    simp only [Bool.false_eq_true, if_false] at hD
    have htrail : readBytesLE 8 Bf (3 + 10 * (n.items.length : Int))
        = n.childNodes.getLastD 0 := by
      rw [hBf]
      exact readBytesLE_writeBytesLE 8 _ _ _
        (getLastD_lt_of_forall n.childNodes (by
          intro heq
          rw [heq] at hlen
          simp at hlen) hch64)
    rw [hser]
    unfold deserializeGo
    simp only [hflag, hcount, hD]
    simp only [List.nil_append, if_true]
    rw [htrail]
    refine congrArg₂ Prod.mk rfl ?_
    exact take_append_getLastD n.childNodes n.items.length hlen

theorem C3_serialize_deserialize_witness :
    deserializeGo (serializeGo 16 (Node.mk 0 [Item.mk [7] [3]] []) (fun _ => 0))
      = ([Item.mk [7] [3]], []) :=
  C3_serialize_deserialize 16 (Node.mk 0 [Item.mk [7] [3]] []) (fun _ => 0)
    (by decide) (Or.inl rfl) (by decide) (by decide) (by decide)

theorem insert_set_eq {α : Type} (l : List α) (x : α) :
    ∀ i, i < l.length →
      ((l.take (i + 1)) ++ l.drop i).set i x = l.take i ++ x :: l.drop i := by
  induction l with
  | nil => intro i h; simp at h
  | cons a as ih =>
      intro i h
      cases i with
      | zero => simp [List.set]
      | succ j =>
          have hj : j < as.length := by simpa using h
          simp only [List.take_succ_cons, List.drop_succ_cons, List.cons_append,
            List.set_cons_succ]
          rw [ih j hj]

theorem insert_set_succ {α : Type} (l : List α) (x : α) :
    ∀ i, i < l.length →
      ((l.take (i + 1)) ++ l.drop i).set (i + 1) x = l.take (i + 1) ++ x :: l.drop (i + 1) := by
  induction l with
  | nil => intro i h; simp at h
  | cons a as ih =>
      intro i h
      cases i with
      | zero => simp [List.set]
      | succ j =>
          have hj : j < as.length := by simpa using h
          simp only [List.take_succ_cons, List.drop_succ_cons, List.cons_append,
            List.set_cons_succ]
          rw [ih j hj]

theorem addItemGo_eq (l : List Item) (x : Item) (i : Nat) (h : i ≤ l.length) :
    addItemGo l x i = l.take i ++ x :: l.drop i := by
  unfold addItemGo
  rcases Nat.eq_or_lt_of_le h with heq | hlt
  · subst heq
    simp
  · rw [if_neg (by omega)]
    exact insert_set_eq l x i hlt

theorem splitIndexAux_lt (minThr L : Nat) :
    ∀ (xs : List Item) (i size s : Nat),
      splitIndexAux minThr L xs i size = Int.ofNat s → s < L := by
  intro xs
  induction xs with
  | nil => intro i size s h; simp [splitIndexAux] at h
  | cons it rest ih =>
      intro i size s h
      unfold splitIndexAux at h
      by_cases hc :
          (minThr < size + (it.key.length + it.value.length + pageNumSize) && i < L) = true
      · rw [if_pos hc] at h
        have : i = s := Int.ofNat.inj h
        subst this
        simpa using (Bool.and_elim_right hc)
      · rw [if_neg hc] at h
        exact ih _ _ _ h

theorem getSplitIndex_lt (minThr : Nat) (n : Node) (s : Nat)
    (h : getSplitIndex minThr n = Int.ofNat s) : s < n.items.length - 1 :=
  splitIndexAux_lt minThr (n.items.length - 1) n.items 0 nodeHeaderSize s h

/-- C5: for an over-populated child with split index `s`, `split` builds a
new node from `child.items[s+1..]` (and for a non-leaf child
`child.childNodes[s+1..]`), truncates the child to items `[..s]` and child
pointers `[..s+1]`, inserts `child.items[s]` into the parent at
`childIndex`, and inserts the new node's page number into the parent's
child pointers at `childIndex + 1`. -/
theorem C5_split (minThr maxThr : Nat) (newPageNum : pgnum) (n child : Node)
    (childIndex s : Nat)
    (hover : maxThr < child.nodeSize)
    (hs : getSplitIndex minThr child = Int.ofNat s)
    (hidx : childIndex < n.childNodes.length)
    (hlen : n.childNodes.length = n.items.length + 1) :
    (splitGo minThr newPageNum n child childIndex).2.2.items = child.items.drop (s + 1) ∧
    (splitGo minThr newPageNum n child childIndex).2.2.childNodes =
      (if child.isLeaf then [] else child.childNodes.drop (s + 1)) ∧
    (splitGo minThr newPageNum n child childIndex).2.2.pageNum = newPageNum ∧
    (splitGo minThr newPageNum n child childIndex).2.1.items = child.items.take s ∧
    (splitGo minThr newPageNum n child childIndex).2.1.childNodes =
      (if child.isLeaf then child.childNodes else child.childNodes.take (s + 1)) ∧
    (splitGo minThr newPageNum n child childIndex).1.items =
      n.items.take childIndex ++ child.items.getD s default :: n.items.drop childIndex ∧
    (splitGo minThr newPageNum n child childIndex).1.childNodes =
      n.childNodes.take (childIndex + 1) ++ newPageNum :: n.childNodes.drop (childIndex + 1) := by
  have hile : childIndex ≤ n.items.length := by omega
  have hchild : addItemGo n.items (child.items.getD s default) childIndex =
      n.items.take childIndex ++ child.items.getD s default :: n.items.drop childIndex :=
    addItemGo_eq _ _ _ hile
  have hchildren :
      (if n.childNodes.length = childIndex + 1 then n.childNodes ++ [newPageNum]
        else ((n.childNodes.take (childIndex + 1)) ++
          n.childNodes.drop childIndex).set (childIndex + 1) newPageNum) =
      n.childNodes.take (childIndex + 1) ++ newPageNum :: n.childNodes.drop (childIndex + 1) := by
    by_cases hc : n.childNodes.length = childIndex + 1
    · rw [if_pos hc, ← hc]
      simp
    · rw [if_neg hc]
      exact insert_set_succ n.childNodes newPageNum childIndex hidx
  unfold splitGo
  rw [hs]
  simp only [Int.toNat_ofNat]
  by_cases hleaf : child.isLeaf = true
  · refine ⟨?_, ?_, ?_, ?_, ?_, ?_, ?_⟩ <;>
      (try simp only [hleaf, eq_self_iff_true, if_true]) <;>
      first
        | rfl
        | exact hchild
        | exact hchildren
  · rw [Bool.not_eq_true] at hleaf
    refine ⟨?_, ?_, ?_, ?_, ?_, ?_, ?_⟩ <;>
      (try simp only [hleaf, Bool.false_eq_true, if_false]) <;>
      first
        | rfl
        | exact hchild
        | exact hchildren

theorem C5_split_witness :
    40 < (Node.mk 3 [Item.mk [1] [1], Item.mk [2] [2], Item.mk [3] [3]] []).nodeSize ∧
    getSplitIndex 20 (Node.mk 3 [Item.mk [1] [1], Item.mk [2] [2], Item.mk [3] [3]] [])
      = Int.ofNat 1 ∧
    (splitGo 20 9 (Node.mk 8 [Item.mk [9] [9]] [5, 7])
        (Node.mk 3 [Item.mk [1] [1], Item.mk [2] [2], Item.mk [3] [3]] []) 0).1.childNodes =
      (Node.mk 8 [Item.mk [9] [9]] [5, 7]).childNodes.take 1 ++
        9 :: (Node.mk 8 [Item.mk [9] [9]] [5, 7]).childNodes.drop 1 := by
  refine ⟨by decide, by decide, ?_⟩
  exact (C5_split 20 40 9 (Node.mk 8 [Item.mk [9] [9]] [5, 7])
    (Node.mk 3 [Item.mk [1] [1], Item.mk [2] [2], Item.mk [3] [3]] []) 0 1
    (by decide) (by decide) (by decide) (by decide)).2.2.2.2.2.2

/-- C7: with a non-empty left sibling and the right node at
`rightNodeIndex ≥ 1`, `rotateRight` removes the last item of the left node,
moves the parent's separator at `rightNodeIndex - 1` to the front of the
right node's items, installs the removed left item as the new separator,
and for a non-leaf left node moves the left node's last child pointer to
the front of the right node's child pointers; nothing else changes. -/
theorem C7_rotateRight (leftNode rightNode parentNode : Node) (rightNodeIndex : Nat)
    (hne : leftNode.items ≠ [])
    (h1 : 1 ≤ rightNodeIndex)
    (hsep : rightNodeIndex - 1 < parentNode.items.length) :
    (rotateRightGo leftNode rightNode parentNode rightNodeIndex).1.items
      = leftNode.items.dropLast ∧
    (rotateRightGo leftNode rightNode parentNode rightNodeIndex).2.2.items
      = parentNode.items.set (rightNodeIndex - 1) (leftNode.items.getLast hne) ∧
    (rotateRightGo leftNode rightNode parentNode rightNodeIndex).2.1.items
      = parentNode.items.get ⟨rightNodeIndex - 1, hsep⟩ :: rightNode.items ∧
    (rotateRightGo leftNode rightNode parentNode rightNodeIndex).2.2.childNodes
      = parentNode.childNodes ∧
    (rotateRightGo leftNode rightNode parentNode rightNodeIndex).1.pageNum
      = leftNode.pageNum ∧
    (rotateRightGo leftNode rightNode parentNode rightNodeIndex).2.1.pageNum
      = rightNode.pageNum ∧
    (rotateRightGo leftNode rightNode parentNode rightNodeIndex).2.2.pageNum
      = parentNode.pageNum ∧
    (if leftNode.isLeaf then
      (rotateRightGo leftNode rightNode parentNode rightNodeIndex).1.childNodes
        = leftNode.childNodes ∧
      (rotateRightGo leftNode rightNode parentNode rightNodeIndex).2.1.childNodes
        = rightNode.childNodes
     else
      (rotateRightGo leftNode rightNode parentNode rightNodeIndex).1.childNodes
        = leftNode.childNodes.dropLast ∧
      (rotateRightGo leftNode rightNode parentNode rightNodeIndex).2.1.childNodes
        = leftNode.childNodes.getLastD 0 :: rightNode.childNodes) := by
  have hclamp : (if rightNodeIndex - 1 = 0 then 0 else rightNodeIndex - 1)
      = rightNodeIndex - 1 := by
    split <;> omega
  have hgetD : parentNode.items.getD (rightNodeIndex - 1) default
      = parentNode.items.get ⟨rightNodeIndex - 1, hsep⟩ := by
    rw [List.getD_eq_getElem parentNode.items default hsep]
    simp
  have hlast : leftNode.items.getLastD default = leftNode.items.getLast hne := by
    rw [List.getLastD_eq_getLast?, List.getLast?_eq_getLast leftNode.items hne]
    rfl
  unfold rotateRightGo
  simp only [hclamp, hgetD, hlast]
  by_cases hleaf : leftNode.isLeaf = true
  · have : ({ leftNode with items := leftNode.items.dropLast } : Node).isLeaf = true := hleaf
    simp only [this, if_true, hleaf, eq_self_iff_true]
    refine ⟨?_, ?_, ?_, ?_, ?_, ?_, ?_, ?_, ?_⟩ <;> trivial
  · rw [Bool.not_eq_true] at hleaf
    have : ({ leftNode with items := leftNode.items.dropLast } : Node).isLeaf = false := hleaf
    simp only [this, hleaf, Bool.false_eq_true, if_false]
    refine ⟨?_, ?_, ?_, ?_, ?_, ?_, ?_, ?_, ?_⟩ <;> trivial

theorem C7_rotateRight_witness :
    (Node.mk 4 [Item.mk [1] [1], Item.mk [2] [2]] []).items ≠ [] ∧
    (rotateRightGo (Node.mk 4 [Item.mk [1] [1], Item.mk [2] [2]] [])
        (Node.mk 5 [Item.mk [7] [7]] []) (Node.mk 6 [Item.mk [5] [5]] [4, 5]) 1).2.1.items
      = Item.mk [5] [5] :: (Node.mk 5 [Item.mk [7] [7]] []).items :=
  ⟨by decide,
   (C7_rotateRight (Node.mk 4 [Item.mk [1] [1], Item.mk [2] [2]] [])
      (Node.mk 5 [Item.mk [7] [7]] []) (Node.mk 6 [Item.mk [5] [5]] [4, 5]) 1
      (by decide) (by decide) (by decide)).2.2.1⟩

/-- C6: `rebalanceRemove` chooses its action in priority order — rotate
right when the node is not the first child and the left sibling can spare
an element; else rotate left when the node is not the last child and the
right sibling can spare; else merge with the right sibling when the node is
the first child, and otherwise merge the node into its left sibling. -/
theorem C6_rebalance_priority (store : pgnum → Option Node) (minThr : Nat)
    (parent unb L R : Node) (idx : Nat)
    (hlen : parent.childNodes.length = parent.items.length + 1)
    (hidx : idx < parent.childNodes.length)
    (h2 : 2 ≤ parent.childNodes.length)
    (hL : idx ≠ 0 → store (parent.childNodes.getD (idx - 1) 0) = some L)
    (hR : idx + 1 < parent.childNodes.length →
      store (parent.childNodes.getD (idx + 1) 0) = some R) :
    (idx ≠ 0 → L.canSpareAnElement minThr = true →
      rebalanceRemoveGo store minThr parent unb idx
        = some (.rotatedRight (rotateRightGo L unb parent idx))) ∧
    ((idx = 0 ∨ L.canSpareAnElement minThr = false) →
      idx < parent.childNodes.length - 1 → R.canSpareAnElement minThr = true →
      rebalanceRemoveGo store minThr parent unb idx
        = some (.rotatedLeft (rotateLeftGo unb R parent idx))) ∧
    (idx = 0 → R.canSpareAnElement minThr = false →
      rebalanceRemoveGo store minThr parent unb idx
        = (mergeGo store parent R 1).map (RebalanceOutcome.merged R 1)) ∧
    (idx ≠ 0 → L.canSpareAnElement minThr = false →
      (idx < parent.childNodes.length - 1 → R.canSpareAnElement minThr = false) →
      rebalanceRemoveGo store minThr parent unb idx
        = (mergeGo store parent unb idx).map (RebalanceOutcome.merged unb idx)) := by
  refine ⟨?_, ?_, ?_, ?_⟩
  · intro h0 hsp
    have hL' := hL h0
    unfold rebalanceRemoveGo
    rw [if_pos h0]
    simp only [hL', hsp, eq_self_iff_true, if_true]
  · intro hfirst hlt hsp
    have hne : idx ≠ parent.childNodes.length - 1 := by omega
    have hR' := hR (by omega)
    rcases hfirst with h0 | hnosp
    · subst h0
      unfold rebalanceRemoveGo
      rw [if_neg (by omega)]
      unfold rebalanceLeftStage
      rw [if_pos hne]
      simp only [hR', hsp, eq_self_iff_true, if_true]
    · by_cases h0 : idx = 0
      · subst h0
        unfold rebalanceRemoveGo
        rw [if_neg (by omega)]
        unfold rebalanceLeftStage
        rw [if_pos hne]
        simp only [hR', hsp, eq_self_iff_true, if_true]
      · have hL' := hL h0
        unfold rebalanceRemoveGo
        rw [if_pos h0]
        simp only [hL']
        rw [if_neg (by simp [hnosp])]
        unfold rebalanceLeftStage
        rw [if_pos hne]
        simp only [hR', hsp, eq_self_iff_true, if_true]
  · intro h0 hnosp
    subst h0
    have hR' := hR (by omega)
    have hne : (0 : Nat) ≠ parent.childNodes.length - 1 := by omega
    unfold rebalanceRemoveGo
    rw [if_neg (by omega)]
    unfold rebalanceLeftStage
    rw [if_pos hne]
    simp only [hR']
    rw [if_neg (by simp [hnosp])]
    unfold rebalanceMergeStage
    rw [if_pos rfl]
    simp only [hR']
    cases hm : mergeGo store parent R (0 + 1) <;> simp [hm]
  · intro h0 hnosp hnospR
    have hL' := hL h0
    by_cases hlt : idx < parent.childNodes.length - 1
    · have hR' := hR (by omega)
      have hne : idx ≠ parent.childNodes.length - 1 := by omega
      unfold rebalanceRemoveGo
      rw [if_pos h0]
      simp only [hL']
      rw [if_neg (by simp [hnosp])]
      unfold rebalanceLeftStage
      rw [if_pos hne]
      simp only [hR']
      rw [if_neg (by simp [hnospR hlt])]
      unfold rebalanceMergeStage
      rw [if_neg h0]
      cases hm : mergeGo store parent unb idx <;> simp [hm]
    · have heq : idx = parent.childNodes.length - 1 := by omega
      unfold rebalanceRemoveGo
      rw [if_pos h0]
      simp only [hL']
      rw [if_neg (by simp [hnosp])]
      unfold rebalanceLeftStage
      rw [if_neg (by omega)]
      unfold rebalanceMergeStage
      rw [if_neg h0]
      cases hm : mergeGo store parent unb idx <;> simp [hm]

/-- C10: whenever `rebalanceRemove` calls `merge`, the right-node index it
passes is at least 1 (it is `unbalancedNodeIndex + 1` when the node is the
first child, and otherwise `unbalancedNodeIndex ≥ 1`), so `merge`'s
accesses to the parent's items and child pointers at `index - 1` never go
below zero, and with `childNodes.length = items.length + 1` they are in
bounds. -/
theorem C10_merge_index_bounds (store : pgnum → Option Node) (minThr : Nat)
    (parent unb b : Node) (idx j : Nat) (r : Node × Node × pgnum)
    (hlen : parent.childNodes.length = parent.items.length + 1)
    (hidx : idx < parent.childNodes.length)
    (h2 : 2 ≤ parent.childNodes.length)
    (hmerged : rebalanceRemoveGo store minThr parent unb idx
      = some (.merged b j r)) :
    1 ≤ j ∧ j - 1 < parent.items.length ∧ j - 1 < parent.childNodes.length ∧
      j < parent.childNodes.length := by
  have hstage : ∀ (u' : Node) (i' : Nat),
      i' < parent.childNodes.length →
      rebalanceMergeStage store parent u' i' = some (.merged b j r) →
      (j = i' + 1 ∧ i' = 0) ∨ (j = i' ∧ i' ≠ 0) := by
    intro u' i' hilt hst
    unfold rebalanceMergeStage at hst
    by_cases h0 : i' = 0
    · subst h0
      rw [if_pos rfl] at hst
      left
      cases hs : store (parent.childNodes.getD (0 + 1) 0) with
      | none => simp only [hs] at hst; exact Option.noConfusion hst
      | some rn =>
          simp only [hs] at hst
          cases hm : mergeGo store parent rn (0 + 1) with
          | none => simp only [hm] at hst; exact Option.noConfusion hst
          | some r' =>
              simp only [hm, Option.some.injEq] at hst
              cases hst
              exact ⟨rfl, rfl⟩
    · rw [if_neg h0] at hst
      right
      cases hm : mergeGo store parent u' i' with
      | none => simp only [hm] at hst; exact Option.noConfusion hst
      | some r' =>
          simp only [hm, Option.some.injEq] at hst
          cases hst
          exact ⟨rfl, h0⟩
  have hleft : ∀ (u' : Node) (i' : Nat),
      i' < parent.childNodes.length →
      rebalanceLeftStage store minThr parent u' i' = some (.merged b j r) →
      (j = i' + 1 ∧ i' = 0) ∨ (j = i' ∧ i' ≠ 0) := by
    intro u' i' hilt hst
    unfold rebalanceLeftStage at hst
    by_cases hne : i' ≠ parent.childNodes.length - 1
    · rw [if_pos hne] at hst
      cases hs : store (parent.childNodes.getD (i' + 1) 0) with
      | none => simp only [hs] at hst; exact Option.noConfusion hst
      | some rn =>
          simp only [hs] at hst
          by_cases hsp : rn.canSpareAnElement minThr = true
          · rw [if_pos hsp] at hst
            exact absurd hst (by simp)
          · rw [if_neg hsp] at hst
            exact hstage u' i' hilt hst
    · rw [if_neg hne] at hst
      exact hstage u' i' hilt hst
  have hcases : (j = idx + 1 ∧ idx = 0) ∨ (j = idx ∧ idx ≠ 0) := by
    unfold rebalanceRemoveGo at hmerged
    by_cases h0 : idx ≠ 0
    · rw [if_pos h0] at hmerged
      cases hs : store (parent.childNodes.getD (idx - 1) 0) with
      | none => simp only [hs] at hmerged; exact Option.noConfusion hmerged
      | some ln =>
          simp only [hs] at hmerged
          by_cases hsp : ln.canSpareAnElement minThr = true
          · rw [if_pos hsp] at hmerged
            exact absurd hmerged (by simp)
          · rw [if_neg hsp] at hmerged
            exact hleft unb idx hidx hmerged
    · rw [if_neg h0] at hmerged
      exact hleft unb idx hidx hmerged
  rcases hcases with ⟨hj, h0⟩ | ⟨hj, h0⟩ <;> omega

theorem C6_rebalance_priority_witness :
    rebalanceRemoveGo
      (fun p =>
        if p = 2 then
          some (Node.mk 2 [Item.mk [1] [1], Item.mk [2] [2], Item.mk [3] [3]] [])
        else if p = 3 then some (Node.mk 3 [Item.mk [60] [60]] []) else none) 20
      (Node.mk 1 [Item.mk [50] [50]] [2, 3]) (Node.mk 3 [Item.mk [60] [60]] []) 1
      = some (.rotatedRight (rotateRightGo
          (Node.mk 2 [Item.mk [1] [1], Item.mk [2] [2], Item.mk [3] [3]] [])
          (Node.mk 3 [Item.mk [60] [60]] [])
          (Node.mk 1 [Item.mk [50] [50]] [2, 3]) 1)) :=
  (C6_rebalance_priority
    (fun p =>
      if p = 2 then
        some (Node.mk 2 [Item.mk [1] [1], Item.mk [2] [2], Item.mk [3] [3]] [])
      else if p = 3 then some (Node.mk 3 [Item.mk [60] [60]] []) else none) 20
    (Node.mk 1 [Item.mk [50] [50]] [2, 3]) (Node.mk 3 [Item.mk [60] [60]] [])
    (Node.mk 2 [Item.mk [1] [1], Item.mk [2] [2], Item.mk [3] [3]] [])
    (Node.mk 3 [Item.mk [60] [60]] []) 1
    (by decide) (by decide) (by decide)
    (fun _ => by decide) (fun h => absurd h (by decide))).1 (by decide) (by decide)

theorem C10_merge_index_bounds_witness :
    1 ≤ 1 ∧ 1 - 1 < (Node.mk 1 [Item.mk [50] [50]] [2, 3]).items.length ∧
    1 - 1 < (Node.mk 1 [Item.mk [50] [50]] [2, 3]).childNodes.length ∧
    1 < (Node.mk 1 [Item.mk [50] [50]] [2, 3]).childNodes.length :=
  C10_merge_index_bounds
    (fun p =>
      if p = 2 then some (Node.mk 2 [Item.mk [10] [10]] [])
      else if p = 3 then some (Node.mk 3 [Item.mk [60] [60]] []) else none) 20
    (Node.mk 1 [Item.mk [50] [50]] [2, 3]) (Node.mk 2 [Item.mk [10] [10]] [])
    (Node.mk 3 [Item.mk [60] [60]] []) 0 1
    (Node.mk 1 [] [2],
     Node.mk 2 [Item.mk [10] [10], Item.mk [50] [50], Item.mk [60] [60]] [], 3)
    (by decide) (by decide) (by decide) (by decide)

/-- C1: evaluated on `storeC1`, `removeItemFromInternal(0)` descends using
`len(n.childNodes) - 1 = 1` computed from the TOP node, reaches the middle
leaf (page 4) and installs its last item `[25]`, while the in-order
predecessor — obtained by repeatedly descending the *current* node's last
child, as the claim states — is `[40]` on page 5.  The code therefore does
not implement the claimed descent. -/
theorem C1_removeItemFromInternal_bug :
    removeItemFromInternalGo storeC1 10 (Node.mk 10 [Item.mk [50] [50]] [1, 9]) 0
      = some (Node.mk 10 [Item.mk [25] [25]] [1, 9], Node.mk 4 [] [], [0, 1]) ∧
    specPredecessorLeaf storeC1 10
        (Node.mk 1 [Item.mk [20] [20], Item.mk [30] [30]] [3, 4, 5])
      = some (Node.mk 5 [Item.mk [40] [40]] []) ∧
    (Item.mk [25] [25] : Item) ≠ Item.mk [40] [40] := by
  decide

end GopherDB
